import Mathlib

/-!
A shallow embedding of `pw::TextParser::Parse` (pwTextParser).

Source: `src/pwTextParser.hpp`.  Strings (`string_t`) are lists of characters,
the value map (`std::map<string_t, string_t>`) is an association list kept in
ascending key order, and the character loop of `Parse` is a step function on
the four locals `sCurrent`, `oss`, `bString` and `list`.  A read through
`front()`/`back()` of an empty string has no defined result in C++; the
embedding returns `none` there.  The class `TextParser` is the record of its
three members with the string-typed part of its interface.
-/

namespace pw

/-! ## The embedding of the source -/

/-- The character type `char_t` of the parser. -/
abbrev char_t := Char

/-- The string type `string_t` of the parser, as the list of its characters. -/
abbrev string_t := List Char

/-- The sentinel `pwTEXT('\0')` that selects whitespace mode. -/
def NUL : char_t := Char.ofNat 0

/-- The classification `std::isspace` of the default "C" locale, on the character code:
space, `\t`, `\n`, `\v`, `\f`, `\r`. -/
def isspace (c : char_t) : Bool :=
  c.toNat == 32 || (9 ≤ c.toNat && c.toNat ≤ 13)

/-- The order `operator<` of `std::string`: lexicographic on the character codes. -/
def strLt : string_t → string_t → Bool
  | [], [] => false
  | [], _ :: _ => true
  | _ :: _, [] => false
  | a :: as, b :: bs =>
    if a.toNat < b.toNat then true
    else if b.toNat < a.toNat then false
    else strLt as bs

/-- The map type `ValueMap = std::map<string_t, string_t>`: the entries in ascending key
order. -/
abbrev ValueMap := List (string_t × string_t)

namespace ValueMap

/-- The write `m[k] = v` on a `std::map`: overwrite the entry of `k`, or insert it in key
order. -/
def assign : ValueMap → string_t → string_t → ValueMap
  | [], k, v => [(k, v)]
  | (a, x) :: rest, k, v =>
    if k = a then (k, v) :: rest
    else if strLt k a then (k, v) :: (a, x) :: rest
    else (a, x) :: assign rest k v

/-- The lookup `m.find(k)`: the value stored under `k`, if any. -/
def find : ValueMap → string_t → Option string_t
  | [], _ => none
  | (a, x) :: rest, k => if k = a then some x else find rest k

/-- The call `m.count(k)`: 1 when `k` has an entry, 0 otherwise. -/
def count (m : ValueMap) (k : string_t) : Nat :=
  if (find m k).isSome then 1 else 0

/-- The call `m.size()`: the number of entries. -/
def size (m : ValueMap) : Nat := m.length

/-- The call `m.clear()`: the empty map. -/
def clear (_m : ValueMap) : ValueMap := []

/-- The ordering invariant of `std::map`: keys strictly ascending, so no key twice. -/
def Sorted (m : ValueMap) : Prop := m.Pairwise (fun e f => strLt e.1 f.1 = true)

instance (m : ValueMap) : Decidable (Sorted m) :=
  inferInstanceAs
    (Decidable (List.Pairwise (fun e f : string_t × string_t => strLt e.1 f.1 = true) m))

end ValueMap

/-- The call `s.front()`: the first character; undefined (`none`) on the empty string. -/
def front (s : string_t) : Option char_t := s.head?

/-- The call `s.back()`: the last character; undefined (`none`) on the empty string. -/
def back (s : string_t) : Option char_t := s.getLast?

/-- The call `s.rfind(c)`: the index of the last occurrence of `c`, `none` for `npos`. -/
def rfind : string_t → char_t → Option Nat
  | [], _ => none
  | x :: xs, c =>
    match rfind xs c with
    | some i => some (i + 1)
    | none => if x = c then some 0 else none

/-- The lambda `stepDown` of `Parse`: cut the path at its last `/`, or empty it. -/
def stepDown (sPath : string_t) : string_t :=
  match rfind sPath '/' with
  | some last => sPath.take last
  | none => []

/-- The lambda `stepUp` of `Parse`: an empty path becomes `s`; a non-empty path is
extended by `/` and `s` when `s` is not empty, and is left alone otherwise. -/
def stepUp (sPath s : string_t) : string_t :=
  if sPath.isEmpty then s
  else if !s.isEmpty then sPath ++ '/' :: s
  else sPath

/-- The locals of `Parse` that live across loop iterations, and the output map. -/
structure ParseState where
  sCurrent : string_t
  oss : string_t
  bString : Bool
  list : ValueMap
deriving DecidableEq

/-- The `c == ';'` branch of the loop: `sValue = oss.str()`, the quote test on
`sValue.front()` and `sValue.back()`, the write to `list[sCurrent]`, then the reset
of `bString` and `oss` and `stepDown(sCurrent)`. -/
def terminate (st : ParseState) : Option ParseState :=
  let sValue := st.oss
  match front sValue with
  | none => none
  | some f =>
    if f = '"' then
      match back sValue with
      | none => none
      | some b =>
        if b = '"' ∧ sValue.length > 2 then
          some { sCurrent := stepDown st.sCurrent, oss := [], bString := false,
                 list := st.list.assign st.sCurrent (sValue.drop 1).dropLast }
        else
          some { sCurrent := stepDown st.sCurrent, oss := [], bString := false,
                 list := st.list.assign st.sCurrent [] }
    else
      some { sCurrent := stepDown st.sCurrent, oss := [], bString := false,
             list := st.list.assign st.sCurrent sValue }

/-- The action `stepUp(sCurrent, oss.str()); oss.str("")`. -/
def push (st : ParseState) : ParseState :=
  { st with sCurrent := stepUp st.sCurrent st.oss, oss := [] }

/-- The fall-through `oss << c`. -/
def append (st : ParseState) (c : char_t) : ParseState :=
  { st with oss := st.oss ++ [c] }

/-- One iteration of the loop `for (auto& c : sData)`. -/
def step (delim : char_t) (st : ParseState) (c : char_t) : Option ParseState :=
  if c = ';' then terminate st
  else if c = '}' then some { st with sCurrent := stepDown st.sCurrent, oss := [] }
  else if c = '{' then some (push st)
  else if c = '"' then some (append { st with bString := true } c)
  else if delim ≠ NUL then
    if c = delim then some (push st)
    else if isspace c ∧ ¬ st.bString then some st
    else some (append st c)
  else
    if isspace c ∧ ¬ st.bString then some (push st)
    else some (append st c)

/-- The loop of `Parse` from a given state over the remaining characters. -/
def run (delim : char_t) : ParseState → string_t → Option ParseState
  | st, [] => some st
  | st, c :: cs =>
    match step delim st c with
    | none => none
    | some st1 => run delim st1 cs

/-- The locals after `list.clear()` and the declarations before the loop. -/
def start (list : ValueMap) : ParseState :=
  { sCurrent := [], oss := [], bString := false, list := list.clear }

/-- The function `TextParser::Parse(sData, list, delim)`: the content of `list` on return, or
`none` when the run reads `front()` of an empty token. -/
def Parse (sData : string_t) (list : ValueMap) (delim : char_t) : Option ValueMap :=
  (run delim (start list) sData).map (fun st => st.list)

/-! ## The class `TextParser` around the map -/

/-- The read `m[k]` on a `std::map` without a write: the entry of `k` is created with the
empty string when it is absent. -/
def ValueMap.subscript (m : ValueMap) (k : string_t) : ValueMap :=
  if (m.find k).isSome then m else m.assign k []

/-- The members `m_Data`, `m_Delim` and `m_Values` of `TextParser`. -/
structure TextParser where
  m_Data : string_t
  m_Delim : char_t
  m_Values : ValueMap
deriving DecidableEq

namespace TextParser

/-- The default constructor `TextParser()`. -/
def construct : TextParser :=
  { m_Data := [], m_Delim := NUL, m_Values := [] }

/-- The constructor `TextParser(sText, delim)`: the members are initialised and
`Parse(m_Data, m_Values, delim)` fills the map. -/
def constructFrom (sText : string_t) (delim : char_t) : Option TextParser :=
  (Parse sText [] delim).map
    (fun m => { m_Data := sText, m_Delim := delim, m_Values := m })

/-- The copy constructor `TextParser(const TextParser&)`. -/
def copy (p : TextParser) : TextParser :=
  { m_Data := p.m_Data, m_Delim := p.m_Delim, m_Values := p.m_Values }

/-- The conversion `operator bool`: `!m_Data.empty() && m_Values.size() != 0`. -/
def operator_bool (p : TextParser) : Bool :=
  !p.m_Data.isEmpty && p.m_Values.size != 0

/-- The member `Contains(sKey)`: `m_Values.count(sKey) > 0`. -/
def Contains (p : TextParser) (sKey : string_t) : Bool :=
  decide (p.m_Values.count sKey > 0)

/-- The member `Size()`. -/
def Size (p : TextParser) : Nat := p.m_Values.size

/-- The member `AddValue(sKey, t)` for a string `t`: `m_Values[sKey] = t`.  The generic
overload writes the string `pwToString(t)` in the same way. -/
def AddValue (p : TextParser) (sKey t : string_t) : TextParser :=
  { p with m_Values := p.m_Values.assign sKey t }

/-- The member `GetValue<string_t>(sKey)`: the empty string when the key is absent, the
stored value otherwise. -/
def GetValue (p : TextParser) (sKey : string_t) : string_t :=
  if !p.Contains sKey then [] else (p.m_Values.find sKey).getD []

/-- The member `GetValue<string_t>(sKey, s)`: the returned flag and the content of the
out-parameter `s` afterwards. -/
def GetValueOut (p : TextParser) (sKey s : string_t) : Bool × string_t :=
  if !p.Contains sKey then (false, s) else (true, (p.m_Values.find sKey).getD s)

/-- The mutable `operator[](sKey)` without a write through the returned reference. -/
def subscript (p : TextParser) (sKey : string_t) : TextParser :=
  { p with m_Values := p.m_Values.subscript sKey }

/-- A write `p[sKey] = t` through the reference returned by the mutable `operator[]`. -/
def subscriptWrite (p : TextParser) (sKey t : string_t) : TextParser :=
  { p with m_Values := p.m_Values.assign sKey t }

end TextParser

/-! ## Inputs and expected results named by the claims -/

/-- The canonical sample document of the specification. -/
def sampleText : string_t :=
  ("tag1 \"value1\"; tag2 10; tag3 1.5; container1 \x7b subtag1 \"subvalue1\"; " ++
   "subtag2 10; subtag3 1.5; subcontainer1 \x7b subsubtag1 \"subsubvalue1\"; \x7d \x7d").toList

/-- The seven entries expected for `sampleText`, in key order. -/
def sampleEntries : ValueMap :=
  [ ("container1/subcontainer1/subsubtag1".toList, "subsubvalue1".toList),
    ("container1/subtag1".toList, "subvalue1".toList),
    ("container1/subtag2".toList, "10".toList),
    ("container1/subtag3".toList, "1.5".toList),
    ("tag1".toList, "value1".toList),
    ("tag2".toList, "10".toList),
    ("tag3".toList, "1.5".toList) ]

/-- None of `;`, `{`, `}`. -/
def noBrace (c : char_t) : Prop := c ≠ ';' ∧ c ≠ '{' ∧ c ≠ '}'

/-- None of `;`, `{`, `}`, `"`. -/
def plain (c : char_t) : Prop := c ≠ ';' ∧ c ≠ '{' ∧ c ≠ '}' ∧ c ≠ '"'

/-- Neither whitespace nor one of `;`, `{`, `}`, `"`. -/
def tokenChar (c : char_t) : Prop := isspace c = false ∧ plain c

instance (c : char_t) : Decidable (noBrace c) :=
  inferInstanceAs (Decidable (c ≠ ';' ∧ c ≠ '{' ∧ c ≠ '}'))

instance (c : char_t) : Decidable (plain c) :=
  inferInstanceAs (Decidable (c ≠ ';' ∧ c ≠ '{' ∧ c ≠ '}' ∧ c ≠ '"'))

instance (c : char_t) : Decidable (tokenChar c) :=
  inferInstanceAs (Decidable (isspace c = false ∧ plain c))

/-- A tag: non-empty, no whitespace and none of `;`, `{`, `}`, `"`. -/
def isTag (k : string_t) : Prop := k ≠ [] ∧ ∀ c ∈ k, tokenChar c

/-- An identifier: a tag that also has no `/`. -/
def isIdent (k : string_t) : Prop := isTag k ∧ '/' ∉ k

instance (k : string_t) : Decidable (isTag k) :=
  inferInstanceAs (Decidable (k ≠ [] ∧ ∀ c ∈ k, tokenChar c))

instance (k : string_t) : Decidable (isIdent k) :=
  inferInstanceAs (Decidable (isTag k ∧ '/' ∉ k))

/-- The entries of `es` written into `m` one after the other, as `list[key] = value`. -/
def assignAll (m : ValueMap) (es : List (string_t × string_t)) : ValueMap :=
  es.foldl (fun acc e => acc.assign e.1 e.2) m

/-- The value of the last pair of `es` whose key is `key`, if there is one. -/
def lastValue : List (string_t × string_t) → string_t → Option string_t
  | [], _ => none
  | (k, v) :: rest, key =>
    match lastValue rest key with
    | some x => some x
    | none => if key = k then some v else none

/-- The text of delimiter mode for the pairs `(k, v)`: the statements `k d v ;` one after
the other, without any space. -/
def delimText (d : char_t) : List (string_t × string_t) → string_t
  | [] => []
  | (k, v) :: rest => k ++ d :: v ++ ';' :: delimText d rest

/-- The segments of a path joined by `/`. -/
def joinPath : List string_t → string_t
  | [] => []
  | [s] => s
  | s :: t :: rest => s ++ '/' :: joinPath (t :: rest)

/-! ## Well-formed documents (claim C2) -/

/-- A value of a scalar statement: a bare token, or the content of a quoted string. -/
inductive Value where
  | bare (tok : string_t)
  | quoted (content : string_t)
deriving DecidableEq

/-- The value as it is written in the text. -/
def Value.render : Value → string_t
  | .bare tok => tok
  | .quoted content => '"' :: content ++ ['"']

/-- The value with its surrounding quotes removed. -/
def Value.text : Value → string_t
  | .bare tok => tok
  | .quoted content => content

/-- A bare token is non-empty without whitespace and without `;`, `{`, `}`, `"`; a quoted
content is without `;`, `{`, `}`, `"`. -/
def Value.wf : Value → Bool
  | .bare tok => decide (isTag tok)
  | .quoted content => decide (∀ c ∈ content, plain c)

/-- A statement of a document: a scalar `IDENT VALUE;` or a container
`IDENT { statements }`. -/
inductive Stmt where
  | scalar (ident : string_t) (value : Value)
  | container (ident : string_t) (body : List Stmt)

mutual
/-- The text of a statement, single spaces between its tokens. -/
def renderStmt : Stmt → string_t
  | .scalar ident value => ident ++ ' ' :: value.render ++ [';']
  | .container ident body => ident ++ [' ', '{'] ++ renderBody body ++ [' ', '}']
/-- The text of the statements of a container, each preceded by one space. -/
def renderBody : List Stmt → string_t
  | [] => []
  | s :: ss => ' ' :: renderStmt s ++ renderBody ss
end

/-- The text of a document: its statements separated by single spaces. -/
def renderDoc : List Stmt → string_t
  | [] => []
  | s :: ss => renderStmt s ++ renderBody ss

mutual
/-- Every identifier and every value of the statement has the form the claim asks for. -/
def wfStmt : Stmt → Bool
  | .scalar ident value => decide (isIdent ident) && value.wf
  | .container ident body => decide (isIdent ident) && wfBody body
/-- Every statement of the list is well formed. -/
def wfBody : List Stmt → Bool
  | [] => true
  | s :: ss => wfStmt s && wfBody ss
end

mutual
/-- The scalars of a statement in document order, each with the path made of the
enclosing container names `ctx` and its own identifier, and its unquoted value. -/
def flattenStmt (ctx : List string_t) : Stmt → List (string_t × string_t)
  | .scalar ident value => [(joinPath (ctx ++ [ident]), value.text)]
  | .container ident body => flattenBody (ctx ++ [ident]) body
/-- The scalars of a list of statements in document order. -/
def flattenBody (ctx : List string_t) : List Stmt → List (string_t × string_t)
  | [] => []
  | s :: ss => flattenStmt ctx s ++ flattenBody ctx ss
end

/-! ## Nested containers with one statement each (claim C6) -/

/-- One level `c { t v; inner }`, where `inner` is empty or starts with a space. -/
def levelText (c t v inner : string_t) : string_t :=
  c ++ [' ', '{', ' '] ++ t ++ ' ' :: v ++ ';' :: inner ++ [' ', '}']

/-- The levels `(c, t, v)` nested into each other, each preceded by one space. -/
def nestLevels : List (string_t × string_t × string_t) → string_t
  | [] => []
  | (c, t, v) :: rest => ' ' :: levelText c t v (nestLevels rest)

/-- The text `c1 { t1 v1; c2 { t2 v2; ... } }` for the levels `(ci, ti, vi)`. -/
def nestText : List (string_t × string_t × string_t) → string_t
  | [] => []
  | (c, t, v) :: rest => levelText c t v (nestLevels rest)

/-- The entries `c1/.../ci/ti -> vi` of the levels, below the containers `ctx`. -/
def nestEntries (ctx : List string_t) :
    List (string_t × string_t × string_t) → List (string_t × string_t)
  | [] => []
  | (c, t, v) :: rest => (joinPath (ctx ++ [c, t]), v) :: nestEntries (ctx ++ [c]) rest

/-! ## Instances and paths of the later claims -/

/-- The instances reachable through the public interface: default construction,
construction from a text, copy, and writes through `AddValue` or the mutable
`operator[]`. -/
inductive Reachable : TextParser → Prop where
  | construct : Reachable TextParser.construct
  | constructFrom (sText : string_t) (delim : char_t) (p : TextParser) :
      TextParser.constructFrom sText delim = some p → Reachable p
  | copy (p : TextParser) : Reachable p → Reachable p.copy
  | addValue (p : TextParser) (sKey t : string_t) : Reachable p → Reachable (p.AddValue sKey t)
  | subscript (p : TextParser) (sKey : string_t) : Reachable p → Reachable (p.subscript sKey)
  | subscriptWrite (p : TextParser) (sKey t : string_t) :
      Reachable p → Reachable (p.subscriptWrite sKey t)

/-- The path is empty or a `/`-join of non-empty segments without `/`. -/
def joinedPath (p : string_t) : Prop :=
  ∃ segs : List string_t, (∀ s ∈ segs, s ≠ [] ∧ '/' ∉ s) ∧ p = joinPath segs

/-- The invariant of the loop on a text without `/`: the path accumulator and every key
written so far are joined paths, and the buffer has no `/`. -/
def pathInvariant (st : ParseState) : Prop :=
  joinedPath st.sCurrent ∧ '/' ∉ st.oss ∧ ∀ e ∈ st.list, joinedPath e.1

/-- The key does not start with `/`, does not end with `/` and does not contain `//`. -/
def wellFormedKey (key : string_t) : Prop :=
  key.head? ≠ some '/' ∧ key.getLast? ≠ some '/' ∧ ¬ ['/', '/'] <:+: key

instance (key : string_t) : Decidable (wellFormedKey key) :=
  inferInstanceAs (Decidable (key.head? ≠ some '/' ∧ key.getLast? ≠ some '/' ∧
    ¬ ['/', '/'] <:+: key))

/-- The text of the header comment: three statements, one per line, without `;`. -/
def headerText : string_t :=
  "tag1\t\t\t\"value1\"\ntag2\t\t\t10\ntag3\t\t\t1.5\n".toList

/-- The same three lines with single spaces between tag and value. -/
def headerLines : string_t :=
  "tag1 \"value1\"\ntag2 10\ntag3 1.5".toList

/-! ## The text behind an instance, and the tokens pushed onto the path -/

/-- The instances reachable through the public interface, together with the text given
at their construction: the empty text for default construction, the argument `sText`
for construction from a text; copies and writes keep it. -/
inductive ReachableFrom : string_t → TextParser → Prop where
  | construct : ReachableFrom [] TextParser.construct
  | constructFrom (sText : string_t) (delim : char_t) (p : TextParser) :
      TextParser.constructFrom sText delim = some p → ReachableFrom sText p
  | copy (sText : string_t) (p : TextParser) : ReachableFrom sText p → ReachableFrom sText p.copy
  | addValue (sText : string_t) (p : TextParser) (sKey t : string_t) :
      ReachableFrom sText p → ReachableFrom sText (p.AddValue sKey t)
  | subscript (sText : string_t) (p : TextParser) (sKey : string_t) :
      ReachableFrom sText p → ReachableFrom sText (p.subscript sKey)
  | subscriptWrite (sText : string_t) (p : TextParser) (sKey t : string_t) :
      ReachableFrom sText p → ReachableFrom sText (p.subscriptWrite sKey t)

/-- Whether the iteration of the loop on `c` in the state `st` calls
`stepUp(sCurrent, oss.str())`: at `{`, at the delimiter in delimiter mode, and at
whitespace outside quotes in whitespace mode. -/
def pushes (delim : char_t) (st : ParseState) (c : char_t) : Bool :=
  if c = ';' then false
  else if c = '}' then false
  else if c = '{' then true
  else if c = '"' then false
  else if delim ≠ NUL then decide (c = delim)
  else isspace c && !st.bString

/-- The buffer contents that the loop pushes onto the path, in order, on the rest of the
text from the state `st`. -/
def pushedTokens (delim : char_t) : ParseState → string_t → List string_t
  | _, [] => []
  | st, c :: cs =>
    match step delim st c with
    | none => []
    | some st1 =>
      if pushes delim st c then st.oss :: pushedTokens delim st1 cs
      else pushedTokens delim st1 cs

/-- The invariant of the loop when no pushed token has a `/`: the path accumulator and
every key written so far are joined paths. -/
def keyInvariant (st : ParseState) : Prop :=
  joinedPath st.sCurrent ∧ ∀ e ∈ st.list, joinedPath e.1

end pw

namespace pw

/-! ## The loop, one character class at a time -/

theorem isspace_plain {c : char_t} (h : isspace c = true) : plain c := by
  refine ⟨?_, ?_, ?_, ?_⟩ <;> (intro hc; subst hc; revert h; decide)

theorem run_append (d : char_t) (a b : string_t) (st : ParseState) :
    run d st (a ++ b) = (run d st a).bind (fun s => run d s b) := by
  induction a generalizing st with
  | nil => simp [run]
  | cons c cs ih =>
    simp only [List.cons_append, run]
    cases step d st c with
    | none => simp
    | some st1 => simpa using ih st1

theorem run_of_run {d : char_t} {a b : string_t} {st st1 : ParseState}
    (h : run d st a = some st1) : run d st (a ++ b) = run d st1 b := by
  simp [run_append, h]

theorem run_single (d : char_t) (st : ParseState) (c : char_t) :
    run d st [c] = step d st c := by
  simp only [run]
  cases step d st c <;> rfl

theorem step_append_ws {st : ParseState} {c : char_t} (hp : plain c)
    (h : isspace c = false ∨ st.bString = true) :
    step NUL st c = some (append st c) := by
  obtain ⟨h1, h2, h3, h4⟩ := hp
  rcases h with h | h <;> simp [step, h1, h2, h3, h4, h]

theorem step_quote (d : char_t) (st : ParseState) :
    step d st '"' = some (append { st with bString := true } '"') := by
  simp [step]

theorem step_space_ws {st : ParseState} {c : char_t} (hc : isspace c = true)
    (hb : st.bString = false) : step NUL st c = some (push st) := by
  obtain ⟨h1, h2, h3, h4⟩ := isspace_plain hc
  simp [step, h1, h2, h3, h4, hc, hb]

theorem push_empty {st : ParseState} (h : st.oss = []) : push st = st := by
  cases st with
  | mk p o b m =>
    simp only at h
    subst h
    cases p <;> simp [push, stepUp]

/-- In whitespace mode a run of token characters is appended to the buffer. -/
theorem run_word_ws (w : string_t) (st : ParseState) (hw : ∀ c ∈ w, tokenChar c) :
    run NUL st w = some { st with oss := st.oss ++ w } := by
  induction w generalizing st with
  | nil => simp [run]
  | cons c cs ih =>
    have hc := hw c (List.mem_cons_self c cs)
    simp only [run, step_append_ws hc.2 (Or.inl hc.1)]
    rw [ih _ (fun x hx => hw x (List.mem_cons_of_mem c hx))]
    simp [append]

/-- In whitespace mode, once the quote flag is set, every character other than
`;`, `{`, `}` is appended to the buffer and the flag stays set. -/
theorem run_quoted_ws (w : string_t) (st : ParseState) (hb : st.bString = true)
    (hw : ∀ c ∈ w, noBrace c) :
    run NUL st w = some { st with oss := st.oss ++ w } := by
  induction w generalizing st with
  | nil => simp [run]
  | cons c cs ih =>
    have hc := hw c (List.mem_cons_self c cs)
    have hcs : ∀ x ∈ cs, noBrace x := fun x hx => hw x (List.mem_cons_of_mem c hx)
    by_cases hq : c = '"'
    · subst hq
      simp only [run, step_quote]
      rw [ih _ rfl hcs]
      cases st
      simp only at hb
      simp [append, hb]
    · simp only [run, step_append_ws ⟨hc.1, hc.2.1, hc.2.2, hq⟩ (Or.inr hb)]
      rw [ih (append st c) hb hcs]
      simp [append]

theorem run_cons_some {d : char_t} {st st1 : ParseState} {c : char_t} (cs : string_t)
    (h : step d st c = some st1) : run d st (c :: cs) = run d st1 cs := by
  simp [run, h]

theorem run_word_ws_then (w rest : string_t) (st : ParseState) (hw : ∀ c ∈ w, tokenChar c) :
    run NUL st (w ++ rest) = run NUL { st with oss := st.oss ++ w } rest :=
  run_of_run (run_word_ws w st hw)

theorem run_quoted_ws_then (w rest : string_t) (st : ParseState) (hb : st.bString = true)
    (hw : ∀ c ∈ w, noBrace c) :
    run NUL st (w ++ rest) = run NUL { st with oss := st.oss ++ w } rest :=
  run_of_run (run_quoted_ws w st hb hw)

/-! ## The terminator branch -/

theorem step_semicolon (d : char_t) (st : ParseState) : step d st ';' = terminate st := by
  simp [step]

/-- A token that starts and ends with a quote records what stands between them. -/
theorem terminate_quoted (p s : string_t) (b : Bool) (m : ValueMap) :
    terminate { sCurrent := p, oss := '"' :: (s ++ ['"']), bString := b, list := m } =
      some { sCurrent := stepDown p, oss := [], bString := false, list := m.assign p s } := by
  have hback : back ('"' :: (s ++ ['"'])) = some '"' := by
    rw [← List.cons_append]
    exact List.getLast?_concat _
  cases s with
  | nil => simp [terminate, front, back]
  | cons x xs =>
    have hmid : (x :: (xs ++ ['"'])).dropLast = x :: xs := by
      rw [← List.cons_append]
      exact List.dropLast_concat
    simp only [terminate, front, List.head?_cons, hback]
    simp [hmid]

/-- A token that starts with a quote and does not end with one records the empty value. -/
theorem terminate_malformed (p u : string_t) (b : Bool) (m : ValueMap)
    (hu : u.getLast? ≠ some '"') :
    terminate { sCurrent := p, oss := '"' :: u, bString := b, list := m } =
      some { sCurrent := stepDown p, oss := [], bString := false, list := m.assign p [] } := by
  cases u with
  | nil => simp [terminate, front, back]
  | cons x xs =>
    have hback : back ('"' :: x :: xs) = (x :: xs).getLast? := by
      simp [back, List.getLast?_cons_cons]
    simp only [terminate, front, List.head?_cons, hback]
    cases hl : (x :: xs).getLast? with
    | none => simp at hl
    | some l =>
      have : l ≠ '"' := by
        intro h
        exact hu (by rw [hl, h])
      simp [this]

/-- A non-empty token that does not start with a quote is recorded as it stands. -/
theorem terminate_bare (p v : string_t) (b : Bool) (m : ValueMap)
    (hv : v ≠ []) (hq : '"' ∉ v) :
    terminate { sCurrent := p, oss := v, bString := b, list := m } =
      some { sCurrent := stepDown p, oss := [], bString := false, list := m.assign p v } := by
  cases v with
  | nil => exact absurd rfl hv
  | cons x xs =>
    have : x ≠ '"' := fun h => hq (by simp [h])
    simp [terminate, front, this]


/-! ## Path bookkeeping -/

theorem stepUp_nil (s : string_t) : stepUp [] s = s := by
  simp [stepUp]

theorem stepUp_cons (x : char_t) (p s : string_t) (hs : s ≠ []) :
    stepUp (x :: p) s = (x :: p) ++ '/' :: s := by
  cases s with
  | nil => exact absurd rfl hs
  | cons y ys => simp [stepUp]

theorem rfind_none {s : string_t} {c : char_t} (h : c ∉ s) : rfind s c = none := by
  induction s with
  | nil => rfl
  | cons x xs ih =>
    have hx : x ≠ c := fun e => h (by simp [e])
    have hxs : c ∉ xs := fun e => h (List.mem_cons_of_mem x e)
    simp [rfind, ih hxs, hx]

theorem rfind_append (p s : string_t) (c : char_t) (h : c ∉ s) :
    rfind (p ++ c :: s) c = some p.length := by
  induction p with
  | nil => simp [rfind, rfind_none h]
  | cons x xs ih => simp [rfind, ih]

theorem stepDown_segment {s : string_t} (h : '/' ∉ s) : stepDown s = [] := by
  simp [stepDown, rfind_none h]

theorem stepDown_append (p s : string_t) (h : '/' ∉ s) :
    stepDown (p ++ '/' :: s) = p := by
  simp [stepDown, rfind_append p s '/' h]

/-- Pushing a non-empty slash-free segment and popping it again restores the path. -/
theorem stepDown_stepUp (p s : string_t) (hs : s ≠ []) (h : '/' ∉ s) :
    stepDown (stepUp p s) = p := by
  cases p with
  | nil => rw [stepUp_nil, stepDown_segment h]
  | cons x xs => rw [stepUp_cons x xs s hs, stepDown_append _ _ h]

theorem isTag.no_quote {k : string_t} (hk : isTag k) : '"' ∉ k :=
  fun h => (hk.2 _ h).2.2.2.2 rfl

/-! ## Whitespace mode, one statement part at a time -/

/-- A tag followed by a whitespace character is pushed onto the path. -/
theorem run_tag_ws (k rest : string_t) (w : char_t) (p : string_t) (m : ValueMap)
    (hk : ∀ c ∈ k, tokenChar c) (hw : isspace w = true) :
    run NUL { sCurrent := p, oss := [], bString := false, list := m } (k ++ w :: rest) =
      run NUL { sCurrent := stepUp p k, oss := [], bString := false, list := m } rest := by
  rw [run_word_ws_then k _ _ hk, run_cons_some _ (step_space_ws hw rfl)]
  simp [push]

/-- A quoted value and its terminator record the text between the quotes. -/
theorem run_quoted_value_ws (s rest : string_t) (p : string_t) (m : ValueMap)
    (hs : ∀ c ∈ s, noBrace c) :
    run NUL { sCurrent := p, oss := [], bString := false, list := m }
        ('"' :: (s ++ '"' :: ';' :: rest)) =
      run NUL { sCurrent := stepDown p, oss := [], bString := false, list := m.assign p s }
        rest := by
  rw [run_cons_some _ (step_quote _ _), run_quoted_ws_then s _ _ rfl hs,
    run_cons_some _ (step_quote _ _)]
  refine run_cons_some _ ((step_semicolon _ _).trans ?_)
  simpa [append] using terminate_quoted p s true m

/-- A bare value and its terminator record the value as it stands. -/
theorem run_bare_value_ws (v rest : string_t) (p : string_t) (m : ValueMap)
    (hv : isTag v) :
    run NUL { sCurrent := p, oss := [], bString := false, list := m } (v ++ ';' :: rest) =
      run NUL { sCurrent := stepDown p, oss := [], bString := false, list := m.assign p v }
        rest := by
  rw [run_word_ws_then v _ _ hv.2]
  refine run_cons_some _ ((step_semicolon _ _).trans ?_)
  simpa using terminate_bare p v false m hv.1 hv.no_quote

/-- The statement `k "s";` alone, in whitespace mode. -/
theorem parse_quoted_statement (k s : string_t) (list : ValueMap)
    (hk : isTag k) (hs : ∀ c ∈ s, noBrace c) :
    Parse (k ++ [' ', '"'] ++ s ++ ['"', ';']) list NUL = some [(k, s)] := by
  have hrun : run NUL (start list) (k ++ ' ' :: '"' :: (s ++ '"' :: ';' :: [])) =
      some { sCurrent := stepDown k, oss := [], bString := false, list := [(k, s)] } := by
    show run NUL { sCurrent := [], oss := [], bString := false, list := [] } _ = _
    rw [run_tag_ws k _ ' ' [] [] hk.2 (by decide), stepUp_nil,
      run_quoted_value_ws s [] k [] hs]
    rfl
  simp only [Parse, List.append_assoc, List.cons_append, List.nil_append, hrun, Option.map_some']

end pw

namespace pw

/-! ## Characters other than the terminator never write to the map -/

theorem step_no_semicolon (d : char_t) (st : ParseState) {c : char_t} (hc : c ≠ ';') :
    ∃ st1, step d st c = some st1 ∧ st1.list = st.list := by
  unfold step
  rw [if_neg hc]
  split_ifs <;> exact ⟨_, rfl, rfl⟩

theorem run_no_semicolon (d : char_t) (u : string_t) (st : ParseState) (hu : ';' ∉ u) :
    ∃ st1, run d st u = some st1 ∧ st1.list = st.list := by
  induction u generalizing st with
  | nil => exact ⟨st, rfl, rfl⟩
  | cons c cs ih =>
    have hc : c ≠ ';' := fun e => hu (by simp [e])
    obtain ⟨st1, h1, hl1⟩ := step_no_semicolon d st hc
    obtain ⟨st2, h2, hl2⟩ := ih st1 (fun e => hu (List.mem_cons_of_mem c e))
    exact ⟨st2, by rw [run_cons_some cs h1, h2], by rw [hl2, hl1]⟩

end pw

namespace pw

/-! ## Braces, and documents in whitespace mode -/

theorem step_open (d : char_t) (st : ParseState) : step d st '{' = some (push st) := by
  simp [step]

theorem step_close (d : char_t) (st : ParseState) :
    step d st '}' = some { st with sCurrent := stepDown st.sCurrent, oss := [] } := by
  simp [step]

/-- A separator that meets an empty buffer changes nothing. -/
theorem run_space_ws (rest : string_t) (p : string_t) (m : ValueMap) :
    run NUL { sCurrent := p, oss := [], bString := false, list := m } (' ' :: rest) =
      run NUL { sCurrent := p, oss := [], bString := false, list := m } rest := by
  rw [run_cons_some _ (step_space_ws (by decide) rfl), push_empty rfl]

theorem assignAll_append (m : ValueMap) (es fs : List (string_t × string_t)) :
    assignAll m (es ++ fs) = assignAll (assignAll m es) fs := by
  simp [assignAll, List.foldl_append]

theorem joinPath_ne_nil {ctx : List string_t} (hne : ctx ≠ []) (h : ∀ s ∈ ctx, s ≠ []) :
    joinPath ctx ≠ [] := by
  match ctx, hne, h with
  | [s], _, h => simpa [joinPath] using h s (by simp)
  | s :: t :: rest, _, h => simp [joinPath]

theorem stepUp_of_ne_nil {p s : string_t} (hp : p ≠ []) (hs : s ≠ []) :
    stepUp p s = p ++ '/' :: s := by
  obtain ⟨x, xs, rfl⟩ := List.exists_cons_of_ne_nil hp
  exact stepUp_cons x xs s hs

theorem joinPath_concat (ctx : List string_t) (s : string_t) (h : ∀ t ∈ ctx, t ≠ [])
    (hs : s ≠ []) : joinPath (ctx ++ [s]) = stepUp (joinPath ctx) s := by
  induction ctx with
  | nil => simp [joinPath, stepUp_nil]
  | cons a rest ih =>
    have hrest : ∀ t ∈ rest, t ≠ [] := fun t ht => h t (List.mem_cons_of_mem a ht)
    cases rest with
    | nil =>
      have ha : a ≠ [] := h a (by simp)
      simp [joinPath, stepUp_of_ne_nil ha hs]
    | cons b bs =>
      have hj : joinPath (b :: bs) ≠ [] := joinPath_ne_nil (by simp) hrest
      show a ++ '/' :: joinPath (b :: bs ++ [s]) = stepUp (a ++ '/' :: joinPath (b :: bs)) s
      rw [ih hrest, stepUp_of_ne_nil hj hs, stepUp_of_ne_nil (by simp) hs]
      simp

theorem plain.noBrace {c : char_t} (h : plain c) : noBrace c :=
  ⟨h.1, h.2.1, h.2.2.1⟩

mutual
/-- From an empty buffer, with the quote flag down and the path of the enclosing
containers, a well-formed statement writes its scalars and restores the path. -/
theorem run_stmt_ws : ∀ (s : Stmt) (ctx : List string_t) (m : ValueMap) (rest : string_t),
    wfStmt s = true → (∀ t ∈ ctx, t ≠ []) →
    run NUL { sCurrent := joinPath ctx, oss := [], bString := false, list := m }
        (renderStmt s ++ rest) =
      run NUL { sCurrent := joinPath ctx, oss := [], bString := false,
                list := assignAll m (flattenStmt ctx s) } rest
  | .scalar ident value, ctx, m, rest, hwf, hctx => by
    simp only [wfStmt, Bool.and_eq_true, decide_eq_true_eq] at hwf
    obtain ⟨⟨hid, hslash⟩, hv⟩ := hwf
    simp only [renderStmt, List.append_assoc, List.cons_append, List.nil_append]
    rw [run_tag_ws ident _ ' ' _ _ hid.2 (by decide)]
    cases value with
    | bare tok =>
      simp only [Value.wf, decide_eq_true_eq] at hv
      simp only [Value.render]
      rw [run_bare_value_ws tok rest _ _ hv, stepDown_stepUp _ _ hid.1 hslash]
      simp [flattenStmt, assignAll, Value.text, joinPath_concat ctx ident hctx hid.1]
    | quoted content =>
      simp only [Value.wf, decide_eq_true_eq] at hv
      simp only [Value.render, List.append_assoc, List.cons_append, List.nil_append]
      rw [run_quoted_value_ws content rest _ _ (fun c hc => (hv c hc).noBrace),
        stepDown_stepUp _ _ hid.1 hslash]
      simp [flattenStmt, assignAll, Value.text, joinPath_concat ctx ident hctx hid.1]
  | .container ident body, ctx, m, rest, hwf, hctx => by
    simp only [wfStmt, Bool.and_eq_true, decide_eq_true_eq] at hwf
    obtain ⟨⟨hid, hslash⟩, hbody⟩ := hwf
    have hctx1 : ∀ t ∈ ctx ++ [ident], t ≠ [] := by
      intro t ht
      rcases List.mem_append.1 ht with h | h
      · exact hctx t h
      · rw [List.mem_singleton.1 h]
        exact hid.1
    simp only [renderStmt, List.append_assoc, List.cons_append, List.nil_append]
    rw [run_tag_ws ident _ ' ' _ _ hid.2 (by decide), run_cons_some _ (step_open _ _),
      push_empty rfl, ← joinPath_concat ctx ident hctx hid.1,
      run_body_ws body (ctx ++ [ident]) m _ hbody hctx1, run_space_ws,
      run_cons_some _ (step_close _ _)]
    simp only [joinPath_concat ctx ident hctx hid.1, stepDown_stepUp _ _ hid.1 hslash,
      flattenStmt]
/-- The statements of a container body, each after its separating space. -/
theorem run_body_ws : ∀ (ss : List Stmt) (ctx : List string_t) (m : ValueMap)
    (rest : string_t), wfBody ss = true → (∀ t ∈ ctx, t ≠ []) →
    run NUL { sCurrent := joinPath ctx, oss := [], bString := false, list := m }
        (renderBody ss ++ rest) =
      run NUL { sCurrent := joinPath ctx, oss := [], bString := false,
                list := assignAll m (flattenBody ctx ss) } rest
  | [], ctx, m, rest, _, _ => by
    simp [renderBody, flattenBody, assignAll]
  | s :: ss, ctx, m, rest, hwf, hctx => by
    simp only [wfBody, Bool.and_eq_true] at hwf
    simp only [renderBody, List.append_assoc, List.cons_append, List.nil_append]
    rw [run_space_ws, run_stmt_ws s ctx m _ hwf.1 hctx, run_body_ws ss ctx _ rest hwf.2 hctx,
      ← assignAll_append]
    simp only [flattenBody]
end

end pw

namespace pw

/-! ## Delimiter mode -/

/-- The terminator branch always lowers the quote flag. -/
theorem terminate_bString {st st1 : ParseState} (h : terminate st = some st1) :
    st1.bString = false := by
  simp only [terminate] at h
  cases hf : front st.oss with
  | none => simp [hf] at h
  | some f =>
    cases hl : back st.oss with
    | none =>
      simp only [hf, hl] at h
      split_ifs at h
      cases h
      rfl
    | some b =>
      simp only [hf, hl] at h
      split_ifs at h <;> (cases h; rfl)

/-- With the quote flag down, a character other than the quote leaves it down. -/
theorem step_bString_false {d : char_t} {st st1 : ParseState} {c : char_t}
    (hc : c ≠ '"') (hb : st.bString = false) (h : step d st c = some st1) :
    st1.bString = false := by
  unfold step at h
  by_cases hsc : c = ';'
  · rw [if_pos hsc] at h
    exact terminate_bString h
  · rw [if_neg hsc] at h
    split_ifs at h <;> (cases h; exact hb)

/-- In delimiter mode, whitespace outside quotes is skipped. -/
theorem step_skip_space {d : char_t} {st : ParseState} {c : char_t}
    (hd : d ≠ NUL) (hds : isspace d = false) (hc : isspace c = true)
    (hb : st.bString = false) : step d st c = some st := by
  obtain ⟨h1, h2, h3, h4⟩ := isspace_plain hc
  have hcd : c ≠ d := fun e => by rw [e, hds] at hc; exact Bool.noConfusion hc
  simp [step, h1, h2, h3, h4, hd, hcd, hc, hb]

theorem run_filter_space {d : char_t} (hd : d ≠ NUL) (hds : isspace d = false)
    (t : string_t) (st : ParseState) (hq : '"' ∉ t) (hb : st.bString = false) :
    run d st t = run d st (t.filter (fun c => !isspace c)) := by
  induction t generalizing st with
  | nil => rfl
  | cons c cs ih =>
    have hq1 : '"' ∉ cs := fun e => hq (List.mem_cons_of_mem c e)
    have hc : c ≠ '"' := fun e => hq (by simp [e])
    by_cases hsp : isspace c = true
    · rw [run_cons_some cs (step_skip_space hd hds hsp hb), ih st hq1 hb]
      simp [List.filter_cons, hsp]
    · have hkeep : (c :: cs).filter (fun c => !isspace c) =
          c :: cs.filter (fun c => !isspace c) := by
        simp [List.filter_cons, hsp]
      rw [hkeep]
      cases hstep : step d st c with
      | none => simp [run, hstep]
      | some st1 =>
        rw [run_cons_some _ hstep, run_cons_some _ hstep]
        exact ih st1 hq1 (step_bString_false hc hb hstep)

/-- In delimiter mode a run of token characters other than the delimiter is appended
to the buffer. -/
theorem run_word_delim {d : char_t} (hd : d ≠ NUL) (w : string_t) (st : ParseState)
    (hw : ∀ c ∈ w, tokenChar c ∧ c ≠ d) :
    run d st w = some { st with oss := st.oss ++ w } := by
  induction w generalizing st with
  | nil => simp [run]
  | cons c cs ih =>
    obtain ⟨⟨hsp, h1, h2, h3, h4⟩, hcd⟩ := hw c (List.mem_cons_self c cs)
    have hstep : step d st c = some (append st c) := by
      simp [step, h1, h2, h3, h4, hd, hcd, hsp]
    rw [run_cons_some cs hstep, ih _ (fun x hx => hw x (List.mem_cons_of_mem c hx))]
    simp [append]

theorem step_delim {d : char_t} (hd : d ≠ NUL) (hp : plain d) (st : ParseState) :
    step d st d = some (push st) := by
  obtain ⟨h1, h2, h3, h4⟩ := hp
  simp [step, h1, h2, h3, h4, hd]

/-- One statement `k d v ;` of delimiter mode, from the empty path and buffer. -/
theorem run_pair_delim {d : char_t} (hd : d ≠ NUL) (hp : plain d) (k v rest : string_t)
    (b : Bool) (m : ValueMap)
    (hk : ∀ c ∈ k, tokenChar c ∧ c ≠ d) (hks : '/' ∉ k)
    (hv : ∀ c ∈ v, tokenChar c ∧ c ≠ d) (hvn : v ≠ []) :
    run d { sCurrent := [], oss := [], bString := b, list := m } (k ++ d :: (v ++ ';' :: rest)) =
      run d { sCurrent := [], oss := [], bString := false, list := m.assign k v } rest := by
  rw [run_of_run (run_word_delim hd k _ hk), run_cons_some _ (step_delim hd hp _),
    run_of_run (run_word_delim hd v _ hv)]
  refine run_cons_some _ ((step_semicolon _ _).trans ?_)
  have hq : '"' ∉ v := fun h => (hv _ h).1.2.2.2.2 rfl
  simpa [push, stepUp_nil, stepDown_segment hks] using terminate_bare k v b m hvn hq

/-- The statements `k d v ;` of delimiter mode, one after the other. -/
theorem run_delimText {d : char_t} (hd : d ≠ NUL) (hp : plain d)
    (pairs : List (string_t × string_t)) (b : Bool) (m : ValueMap)
    (h : ∀ p ∈ pairs, isIdent p.1 ∧ d ∉ p.1 ∧ isTag p.2 ∧ d ∉ p.2) :
    (run d { sCurrent := [], oss := [], bString := b, list := m } (delimText d pairs)).map
        (fun st => st.list) = some (assignAll m pairs) := by
  induction pairs generalizing b m with
  | nil => rfl
  | cons p rest ih =>
    obtain ⟨k, v⟩ := p
    obtain ⟨hk, hkd, hv, hvd⟩ := h (k, v) (List.mem_cons_self _ _)
    have hk1 : ∀ c ∈ k, tokenChar c ∧ c ≠ d :=
      fun c hc => ⟨hk.1.2 c hc, fun e => hkd (e ▸ hc)⟩
    have hv1 : ∀ c ∈ v, tokenChar c ∧ c ≠ d :=
      fun c hc => ⟨hv.2 c hc, fun e => hvd (e ▸ hc)⟩
    simp only [delimText, List.append_assoc, List.cons_append]
    rw [run_pair_delim hd hp k v _ b m hk1 hk.2 hv1 hv.1,
      ih false (m.assign k v) (fun q hq => h q (List.mem_cons_of_mem _ hq))]
    rfl

end pw

namespace pw

/-! ## The value map -/

theorem strLt_irrefl (a : string_t) : strLt a a = false := by
  induction a with
  | nil => rfl
  | cons x xs ih => simp [strLt, ih]

theorem strLt_trans : ∀ {a b c : string_t}, strLt a b = true → strLt b c = true →
    strLt a c = true
  | [], [], _, h, _ => by simp [strLt] at h
  | [], _ :: _, [], _, h => by simp [strLt] at h
  | [], _ :: _, _ :: _, _, _ => by simp [strLt]
  | _ :: _, [], _, h, _ => by simp [strLt] at h
  | _ :: _, _ :: _, [], _, h => by simp [strLt] at h
  | x :: xs, y :: ys, z :: zs, h1, h2 => by
    simp only [strLt] at h1 h2 ⊢
    split_ifs at h1 h2 ⊢ <;> first
      | rfl
      | omega
      | exact strLt_trans h1 h2

theorem strLt_connex : ∀ {a b : string_t}, a ≠ b → strLt a b = false → strLt b a = true
  | [], [], h, _ => absurd rfl h
  | [], _ :: _, _, h => by simp [strLt] at h
  | _ :: _, [], _, _ => by simp [strLt]
  | x :: xs, y :: ys, hne, h => by
    simp only [strLt] at h ⊢
    split_ifs at h ⊢ with h1 h2
    · rfl
    · have hxy : x = y := Char.eq_of_val_eq (UInt32.ext (by
        have : x.toNat = y.toNat := by omega
        exact this))
      subst hxy
      exact strLt_connex (fun e => hne (by rw [e])) h

namespace ValueMap

theorem find_assign (m : ValueMap) (k v key : string_t) :
    find (assign m k v) key = if key = k then some v else find m key := by
  induction m with
  | nil => simp [assign, find]
  | cons e rest ih =>
    obtain ⟨a, x⟩ := e
    simp only [assign]
    split_ifs with h1 h2 h3 h4 h5
    all_goals simp_all [find]

theorem mem_assign {m : ValueMap} {k v : string_t} {e : string_t × string_t}
    (h : e ∈ assign m k v) : e = (k, v) ∨ e ∈ m := by
  induction m with
  | nil => simpa [assign] using h
  | cons f rest ih =>
    obtain ⟨a, x⟩ := f
    simp only [assign] at h
    split_ifs at h
    · rcases List.mem_cons.1 h with h | h
      · exact Or.inl h
      · exact Or.inr (List.mem_cons_of_mem _ h)
    · rcases List.mem_cons.1 h with h | h
      · exact Or.inl h
      · exact Or.inr h
    · rcases List.mem_cons.1 h with h | h
      · exact Or.inr (by simp [h])
      · rcases ih h with h | h
        · exact Or.inl h
        · exact Or.inr (List.mem_cons_of_mem _ h)

/-- Writing an entry keeps the keys strictly ascending. -/
theorem Sorted.assign {m : ValueMap} (hm : Sorted m) (k v : string_t) :
    Sorted (assign m k v) := by
  induction m with
  | nil => simp [ValueMap.assign, Sorted]
  | cons f rest ih =>
    obtain ⟨a, x⟩ := f
    obtain ⟨hhead, htail⟩ := List.pairwise_cons.1 hm
    simp only [ValueMap.assign]
    split_ifs with h1 h2
    · subst h1
      exact List.pairwise_cons.2 ⟨hhead, htail⟩
    · refine List.pairwise_cons.2 ⟨?_, hm⟩
      intro e he
      rcases List.mem_cons.1 he with he | he
      · rw [he]
        exact h2
      · exact strLt_trans h2 (hhead e he)
    · refine List.pairwise_cons.2 ⟨?_, ih htail⟩
      intro e he
      rcases mem_assign he with he | he
      · rw [he]
        exact strLt_connex h1 (by simpa using h2)
      · exact hhead e he

end ValueMap

theorem sorted_assignAll {m : ValueMap} (hm : m.Sorted) (es : List (string_t × string_t)) :
    (assignAll m es).Sorted := by
  induction es generalizing m with
  | nil => exact hm
  | cons e es ih => exact ih (hm.assign e.1 e.2)

theorem find_assignAll (m : ValueMap) (es : List (string_t × string_t)) (key : string_t) :
    (assignAll m es).find key = (lastValue es key).or (m.find key) := by
  induction es generalizing m with
  | nil => simp [assignAll, lastValue]
  | cons e es ih =>
    obtain ⟨k, v⟩ := e
    have h := ih (m.assign k v)
    simp only [assignAll, List.foldl_cons] at h ⊢
    rw [h, ValueMap.find_assign]
    simp only [lastValue]
    cases lastValue es key with
    | some x => rfl
    | none => split_ifs <;> rfl

theorem ValueMap.mem_keys_assign {m : ValueMap} {k v a : string_t}
    (h : a ∈ (m.assign k v).map Prod.fst) : a = k ∨ a ∈ m.map Prod.fst := by
  obtain ⟨e, he, rfl⟩ := List.mem_map.1 h
  rcases ValueMap.mem_assign he with h1 | h1
  · exact Or.inl (by rw [h1])
  · exact Or.inr (List.mem_map.2 ⟨e, h1, rfl⟩)

/-- Writing under a key that is not in the map adds one entry. -/
theorem ValueMap.size_assign_new {m : ValueMap} {k : string_t} (v : string_t)
    (h : k ∉ m.map Prod.fst) : (m.assign k v).size = m.size + 1 := by
  induction m with
  | nil => rfl
  | cons e rest ih =>
    obtain ⟨a, x⟩ := e
    have hka : k ≠ a := fun e => h (by simp [e])
    have hrest : k ∉ rest.map Prod.fst := fun e => h (by simp [e])
    simp only [ValueMap.assign, if_neg hka]
    split_ifs
    · rfl
    · simp only [ValueMap.size, List.length_cons] at ih ⊢
      rw [ih hrest]

theorem size_assignAll_new (m : ValueMap) (es : List (string_t × string_t))
    (hnd : (es.map Prod.fst).Nodup) (hnew : ∀ k ∈ es.map Prod.fst, k ∉ m.map Prod.fst) :
    (assignAll m es).size = m.size + es.length := by
  induction es generalizing m with
  | nil => rfl
  | cons e es ih =>
    obtain ⟨k, v⟩ := e
    obtain ⟨hk, hnd1⟩ := List.nodup_cons.1 hnd
    have hstep := ValueMap.size_assign_new v (hnew k (by simp))
    have hnew1 : ∀ a ∈ es.map Prod.fst, a ∉ (m.assign k v).map Prod.fst := by
      intro a ha hmem
      rcases ValueMap.mem_keys_assign hmem with h1 | h1
      · exact hk (h1 ▸ ha)
      · exact hnew a (List.mem_cons_of_mem _ ha) h1
    have h := ih (m.assign k v) hnd1 hnew1
    simp only [assignAll, List.foldl_cons, List.length_cons] at h ⊢
    rw [h, hstep]
    omega

theorem lastValue_none {es : List (string_t × string_t)} {key : string_t}
    (h : key ∉ es.map Prod.fst) : lastValue es key = none := by
  induction es with
  | nil => rfl
  | cons e es ih =>
    obtain ⟨k, v⟩ := e
    have hk : key ≠ k := fun e => h (by simp [e])
    have hrest : key ∉ es.map Prod.fst := fun e => h (by simp [e])
    simp [lastValue, ih hrest, hk]

theorem lastValue_of_mem {es : List (string_t × string_t)} {k v : string_t}
    (hnd : (es.map Prod.fst).Nodup) (h : (k, v) ∈ es) : lastValue es k = some v := by
  induction es with
  | nil => cases h
  | cons e es ih =>
    obtain ⟨k1, v1⟩ := e
    obtain ⟨hk, hnd1⟩ := List.nodup_cons.1 hnd
    rcases List.mem_cons.1 h with h1 | h1
    · cases h1
      simp [lastValue, lastValue_none hk]
    · simp [lastValue, ih hnd1 h1]

end pw

namespace pw

/-! ## Nested containers -/

/-- One level `c { t v; inner }` in whitespace mode, given what `inner` does. -/
theorem run_level (c t v inner rest : string_t) (ctx : List string_t) (m : ValueMap)
    (f : ValueMap → ValueMap) (hc : isIdent c) (ht : isIdent t) (hv : isTag v)
    (hctx : ∀ s ∈ ctx, s ≠ [])
    (hinner : ∀ (m1 : ValueMap) (rest1 : string_t),
      run NUL { sCurrent := joinPath (ctx ++ [c]), oss := [], bString := false, list := m1 }
          (inner ++ rest1) =
        run NUL { sCurrent := joinPath (ctx ++ [c]), oss := [], bString := false,
                  list := f m1 } rest1) :
    run NUL { sCurrent := joinPath ctx, oss := [], bString := false, list := m }
        (levelText c t v inner ++ rest) =
      run NUL { sCurrent := joinPath ctx, oss := [], bString := false,
                list := f (m.assign (joinPath (ctx ++ [c, t])) v) } rest := by
  have hctx1 : ∀ s ∈ ctx ++ [c], s ≠ [] := by
    intro s hs
    rcases List.mem_append.1 hs with h | h
    · exact hctx s h
    · rw [List.mem_singleton.1 h]
      exact hc.1.1
  have hkey : joinPath (ctx ++ [c, t]) = stepUp (joinPath (ctx ++ [c])) t := by
    rw [← joinPath_concat (ctx ++ [c]) t hctx1 ht.1.1]
    simp
  simp only [levelText, List.append_assoc, List.cons_append, List.nil_append]
  rw [run_tag_ws c _ ' ' _ _ hc.1.2 (by decide), run_cons_some _ (step_open _ _),
    push_empty rfl, run_space_ws, ← joinPath_concat ctx c hctx hc.1.1,
    run_tag_ws t _ ' ' _ _ ht.1.2 (by decide), run_bare_value_ws v _ _ _ hv,
    stepDown_stepUp _ _ ht.1.1 ht.2, hinner, run_space_ws,
    run_cons_some _ (step_close _ _), hkey]
  simp only [joinPath_concat ctx c hctx hc.1.1, stepDown_stepUp _ _ hc.1.1 hc.2]

theorem run_nestLevels (levels : List (string_t × string_t × string_t))
    (ctx : List string_t) (m : ValueMap) (rest : string_t)
    (h : ∀ l ∈ levels, isIdent l.1 ∧ isIdent l.2.1 ∧ isTag l.2.2)
    (hctx : ∀ s ∈ ctx, s ≠ []) :
    run NUL { sCurrent := joinPath ctx, oss := [], bString := false, list := m }
        (nestLevels levels ++ rest) =
      run NUL { sCurrent := joinPath ctx, oss := [], bString := false,
                list := assignAll m (nestEntries ctx levels) } rest := by
  induction levels generalizing ctx m rest with
  | nil => rfl
  | cons l ls ih =>
    obtain ⟨c, t, v⟩ := l
    obtain ⟨hc, ht, hv⟩ := h (c, t, v) (List.mem_cons_self _ _)
    have hls : ∀ l ∈ ls, isIdent l.1 ∧ isIdent l.2.1 ∧ isTag l.2.2 :=
      fun l hl => h l (List.mem_cons_of_mem _ hl)
    have hctx1 : ∀ s ∈ ctx ++ [c], s ≠ [] := by
      intro s hs
      rcases List.mem_append.1 hs with h | h
      · exact hctx s h
      · rw [List.mem_singleton.1 h]
        exact hc.1.1
    simp only [nestLevels, List.cons_append]
    rw [run_space_ws, run_level c t v (nestLevels ls) rest ctx m
      (fun m1 => assignAll m1 (nestEntries (ctx ++ [c]) ls)) hc ht hv hctx
      (fun m1 rest1 => ih (ctx ++ [c]) m1 rest1 hls hctx1)]
    rfl

end pw

namespace pw

theorem count_joinPath (segs : List string_t) (h : ∀ s ∈ segs, '/' ∉ s) :
    (joinPath segs).count '/' = segs.length - 1 := by
  match segs, h with
  | [], _ => rfl
  | [s], h => simpa [joinPath] using List.count_eq_zero_of_not_mem (h s (by simp))
  | s :: t :: rest, h =>
    have ih := count_joinPath (t :: rest) (fun x hx => h x (List.mem_cons_of_mem _ hx))
    have hs : s.count '/' = 0 := List.count_eq_zero_of_not_mem (h s (by simp))
    simp only [joinPath, List.count_append, List.count_cons_self, hs, ih, List.length_cons]
    omega

theorem slashes_nestEntries (levels : List (string_t × string_t × string_t))
    (ctx : List string_t) (h : ∀ l ∈ levels, isIdent l.1 ∧ isIdent l.2.1 ∧ isTag l.2.2)
    (hctx : ∀ s ∈ ctx, '/' ∉ s) :
    ∀ e ∈ nestEntries ctx levels, ctx.length + 1 ≤ e.1.count '/' := by
  induction levels generalizing ctx with
  | nil => intro e he; cases he
  | cons l ls ih =>
    obtain ⟨c, t, v⟩ := l
    obtain ⟨hc, ht, _⟩ := h (c, t, v) (List.mem_cons_self _ _)
    intro e he
    rcases List.mem_cons.1 he with he | he
    · have hsegs : ∀ s ∈ ctx ++ [c, t], '/' ∉ s := by
        intro s hs
        rcases List.mem_append.1 hs with h1 | h1
        · exact hctx s h1
        · rcases List.mem_cons.1 h1 with h2 | h2
          · rw [h2]; exact hc.2
          · rw [List.mem_singleton.1 h2]; exact ht.2
      rw [he]
      simp [count_joinPath _ hsegs]
    · have hctx1 : ∀ s ∈ ctx ++ [c], '/' ∉ s := by
        intro s hs
        rcases List.mem_append.1 hs with h1 | h1
        · exact hctx s h1
        · rw [List.mem_singleton.1 h1]; exact hc.2
      have := ih (ctx ++ [c]) (fun l hl => h l (List.mem_cons_of_mem _ hl)) hctx1 e he
      simp only [List.length_append, List.length_singleton] at this
      omega

/-- The keys of the nested levels are pairwise different: their depths differ. -/
theorem nodup_nestEntries (levels : List (string_t × string_t × string_t))
    (ctx : List string_t) (h : ∀ l ∈ levels, isIdent l.1 ∧ isIdent l.2.1 ∧ isTag l.2.2)
    (hctx : ∀ s ∈ ctx, '/' ∉ s) :
    ((nestEntries ctx levels).map Prod.fst).Nodup := by
  induction levels generalizing ctx with
  | nil => exact List.nodup_nil
  | cons l ls ih =>
    obtain ⟨c, t, v⟩ := l
    obtain ⟨hc, ht, _⟩ := h (c, t, v) (List.mem_cons_self _ _)
    have hls : ∀ l ∈ ls, isIdent l.1 ∧ isIdent l.2.1 ∧ isTag l.2.2 :=
      fun l hl => h l (List.mem_cons_of_mem _ hl)
    have hctx1 : ∀ s ∈ ctx ++ [c], '/' ∉ s := by
      intro s hs
      rcases List.mem_append.1 hs with h1 | h1
      · exact hctx s h1
      · rw [List.mem_singleton.1 h1]; exact hc.2
    have hsegs : ∀ s ∈ ctx ++ [c, t], '/' ∉ s := by
      intro s hs
      rcases List.mem_append.1 hs with h1 | h1
      · exact hctx s h1
      · rcases List.mem_cons.1 h1 with h2 | h2
        · rw [h2]; exact hc.2
        · rw [List.mem_singleton.1 h2]; exact ht.2
    simp only [nestEntries, List.map_cons]
    refine List.nodup_cons.2 ⟨?_, ih (ctx ++ [c]) hls hctx1⟩
    intro hmem
    obtain ⟨e, he, hkey⟩ := List.mem_map.1 hmem
    have h1 := slashes_nestEntries ls (ctx ++ [c]) hls hctx1 e he
    have h2 := count_joinPath _ hsegs
    rw [hkey, h2] at h1
    simp only [List.length_append, List.length_singleton, List.length_cons,
      List.length_nil] at h1
    omega

theorem length_nestEntries (levels : List (string_t × string_t × string_t))
    (ctx : List string_t) : (nestEntries ctx levels).length = levels.length := by
  induction levels generalizing ctx with
  | nil => rfl
  | cons l ls ih =>
    obtain ⟨c, t, v⟩ := l
    simp [nestEntries, ih]

/-- The level at index `i` contributes the entry under the first `i` containers, its own
container and its tag. -/
theorem mem_nestEntries (levels : List (string_t × string_t × string_t))
    (ctx : List string_t) (i : Nat) (c t v : string_t) (h : levels[i]? = some (c, t, v)) :
    (joinPath (ctx ++ (levels.take i).map (fun l => l.1) ++ [c, t]), v) ∈
      nestEntries ctx levels := by
  induction levels generalizing ctx i with
  | nil => simp at h
  | cons l ls ih =>
    obtain ⟨c1, t1, v1⟩ := l
    cases i with
    | zero =>
      simp only [List.getElem?_cons_zero, Option.some.injEq, Prod.mk.injEq] at h
      obtain ⟨rfl, rfl, rfl⟩ := h
      simp [nestEntries]
    | succ j =>
      simp only [List.getElem?_cons_succ] at h
      have := ih (ctx ++ [c1]) j h
      simp only [nestEntries, List.take_succ_cons, List.map_cons]
      refine List.mem_cons_of_mem _ ?_
      simpa using this

end pw

namespace pw

/-! ## The map under the class interface -/

theorem ValueMap.find_none_of_lt {m : ValueMap} {k : string_t}
    (h : ∀ e ∈ m, strLt k e.1 = true) : m.find k = none := by
  induction m with
  | nil => rfl
  | cons e rest ih =>
    obtain ⟨a, x⟩ := e
    have hka : k ≠ a := by
      intro e
      have := h (a, x) (List.mem_cons_self _ _)
      rw [e, strLt_irrefl] at this
      exact Bool.noConfusion this
    simp only [ValueMap.find, if_neg hka]
    exact ih (fun e he => h e (List.mem_cons_of_mem _ he))

/-- On a map with ascending keys a write adds an entry exactly when the key is new. -/
theorem ValueMap.size_assign {m : ValueMap} (hm : m.Sorted) (k v : string_t) :
    (m.assign k v).size = if (m.find k).isSome then m.size else m.size + 1 := by
  induction m with
  | nil => rfl
  | cons e rest ih =>
    obtain ⟨a, x⟩ := e
    obtain ⟨hhead, htail⟩ := List.pairwise_cons.1 hm
    by_cases hka : k = a
    · simp [ValueMap.assign, ValueMap.find, ValueMap.size, hka]
    · by_cases hlt : strLt k a = true
      · have hnone : ValueMap.find rest k = none :=
          ValueMap.find_none_of_lt (fun e he => strLt_trans hlt (hhead e he))
        simp [ValueMap.assign, ValueMap.find, ValueMap.size, hka, hlt, hnone]
      · have := ih htail
        simp only [ValueMap.assign, ValueMap.find, ValueMap.size, if_neg hka, if_neg hlt,
          List.length_cons] at this ⊢
        rw [this]
        split_ifs <;> rfl

theorem ValueMap.find_isSome_iff_count (m : ValueMap) (k : string_t) :
    decide (m.count k > 0) = (m.find k).isSome := by
  unfold ValueMap.count
  cases (m.find k).isSome <;> simp

/-! ## Runs without a quote -/

theorem run_bString_false {d : char_t} (u : string_t) {st st1 : ParseState}
    (hu : '"' ∉ u) (hb : st.bString = false) (h : run d st u = some st1) :
    st1.bString = false := by
  induction u generalizing st with
  | nil =>
    simp only [run, Option.some.injEq] at h
    rw [← h]
    exact hb
  | cons c cs ih =>
    have hc : c ≠ '"' := fun e => hu (by simp [e])
    cases hstep : step d st c with
    | none => simp [run, hstep] at h
    | some st2 =>
      rw [run_cons_some cs hstep] at h
      exact ih (fun e => hu (List.mem_cons_of_mem c e)) (step_bString_false hc hb hstep) h

theorem parse_nil (list : ValueMap) (d : char_t) : Parse [] list d = some [] := rfl

end pw

namespace pw

/-! ## Paths on a text without a slash -/

theorem stepUp_empty (p : string_t) : stepUp p [] = p := by
  cases p <;> simp [stepUp]

theorem joinedPath_nil : joinedPath [] :=
  ⟨[], fun _ hs => (List.not_mem_nil _ hs).elim, rfl⟩

theorem joinedPath_stepUp {p s : string_t} (hp : joinedPath p) (hs : '/' ∉ s) :
    joinedPath (stepUp p s) := by
  by_cases hne : s = []
  · rw [hne, stepUp_empty]
    exact hp
  · obtain ⟨segs, hsegs, rfl⟩ := hp
    refine ⟨segs ++ [s], ?_, (joinPath_concat segs s (fun t ht => (hsegs t ht).1) hne).symm⟩
    intro t ht
    rcases List.mem_append.1 ht with h | h
    · exact hsegs t h
    · rw [List.mem_singleton.1 h]
      exact ⟨hne, hs⟩

theorem joinedPath_stepDown {p : string_t} (hp : joinedPath p) : joinedPath (stepDown p) := by
  obtain ⟨segs, hsegs, rfl⟩ := hp
  rcases List.eq_nil_or_concat segs with h | ⟨init, s, h⟩
  · rw [h]
    exact joinedPath_nil
  · rw [List.concat_eq_append] at h
    subst h
    have hinit : ∀ t ∈ init, t ≠ [] ∧ '/' ∉ t :=
      fun t ht => hsegs t (List.mem_append_left _ ht)
    have hs := hsegs s (List.mem_append_right _ (List.mem_singleton_self s))
    rw [joinPath_concat init s (fun t ht => (hinit t ht).1) hs.1,
      stepDown_stepUp _ _ hs.1 hs.2]
    exact ⟨init, hinit, rfl⟩

/-- What the terminator branch leaves behind when it returns. -/
theorem terminate_shape {st st1 : ParseState} (h : terminate st = some st1) :
    ∃ v, st1 = { sCurrent := stepDown st.sCurrent, oss := [], bString := false,
                 list := st.list.assign st.sCurrent v } := by
  simp only [terminate] at h
  cases hf : front st.oss with
  | none => simp [hf] at h
  | some f =>
    cases hl : back st.oss with
    | none =>
      simp only [hf, hl] at h
      split_ifs at h
      cases h
      exact ⟨_, rfl⟩
    | some b =>
      simp only [hf, hl] at h
      split_ifs at h <;> (cases h; exact ⟨_, rfl⟩)

theorem step_pathInvariant {d : char_t} {st st1 : ParseState} {c : char_t}
    (hc : c ≠ '/') (hinv : pathInvariant st) (h : step d st c = some st1) :
    pathInvariant st1 := by
  obtain ⟨hp, ho, hl⟩ := hinv
  have hdown : pathInvariant { st with sCurrent := stepDown st.sCurrent, oss := [] } :=
    ⟨joinedPath_stepDown hp, by simp, hl⟩
  have hpush : pathInvariant (push st) :=
    ⟨joinedPath_stepUp hp ho, by simp [push], hl⟩
  have hoc : '/' ∉ st.oss ++ [c] := by
    intro hmem
    rcases List.mem_append.1 hmem with h1 | h1
    · exact ho h1
    · exact hc (List.mem_singleton.1 h1).symm
  have happ : pathInvariant (append st c) := ⟨hp, hoc, hl⟩
  have hquote : pathInvariant (append { st with bString := true } c) := ⟨hp, hoc, hl⟩
  unfold step at h
  by_cases hsc : c = ';'
  · rw [if_pos hsc] at h
    obtain ⟨v, rfl⟩ := terminate_shape h
    refine ⟨joinedPath_stepDown hp, by simp, ?_⟩
    intro e he
    rcases ValueMap.mem_assign he with h1 | h1
    · rw [h1]
      exact hp
    · exact hl e h1
  · rw [if_neg hsc] at h
    split_ifs at h <;> cases h
    all_goals first
      | exact hdown
      | exact hpush
      | exact hquote
      | exact happ
      | exact ⟨hp, ho, hl⟩

theorem run_pathInvariant {d : char_t} (t : string_t) {st st1 : ParseState}
    (ht : '/' ∉ t) (hinv : pathInvariant st) (h : run d st t = some st1) :
    pathInvariant st1 := by
  induction t generalizing st with
  | nil =>
    simp only [run, Option.some.injEq] at h
    rw [← h]
    exact hinv
  | cons c cs ih =>
    have hc : c ≠ '/' := fun e => ht (by simp [e])
    cases hstep : step d st c with
    | none => simp [run, hstep] at h
    | some st2 =>
      rw [run_cons_some cs hstep] at h
      exact ih (fun e => ht (List.mem_cons_of_mem c e)) (step_pathInvariant hc hinv hstep) h

theorem pathInvariant_start (list : ValueMap) : pathInvariant (start list) :=
  ⟨joinedPath_nil, by simp [start], fun _ he => (List.not_mem_nil _ he).elim⟩

/-! ## A joined path is a well-formed key -/

theorem head?_joinPath {segs : List string_t} (h : ∀ s ∈ segs, s ≠ [] ∧ '/' ∉ s) :
    (joinPath segs).head? ≠ some '/' := by
  match segs, h with
  | [], _ => simp [joinPath]
  | [s], h =>
    obtain ⟨hne, hs⟩ := h s (by simp)
    obtain ⟨x, xs, rfl⟩ := List.exists_cons_of_ne_nil hne
    have : x ≠ '/' := fun e => hs (by simp [e])
    simpa [joinPath] using this
  | s :: t :: rest, h =>
    obtain ⟨hne, hs⟩ := h s (by simp)
    obtain ⟨x, xs, rfl⟩ := List.exists_cons_of_ne_nil hne
    have : x ≠ '/' := fun e => hs (by simp [e])
    simpa [joinPath] using this

theorem getLast?_joinPath {segs : List string_t} (h : ∀ s ∈ segs, s ≠ [] ∧ '/' ∉ s) :
    (joinPath segs).getLast? ≠ some '/' := by
  rcases List.eq_nil_or_concat segs with h0 | ⟨init, s, h0⟩
  · rw [h0]
    simp [joinPath]
  · rw [List.concat_eq_append] at h0
    subst h0
    have hinit : ∀ t ∈ init, t ≠ [] :=
      fun t ht => (h t (List.mem_append_left _ ht)).1
    obtain ⟨hne, hs⟩ := h s (List.mem_append_right _ (List.mem_singleton_self s))
    have hlast : ∀ a : string_t, (a ++ s).getLast? = s.getLast? := by
      intro a
      rw [List.getLast?_append]
      cases hl : s.getLast? with
      | none => exact absurd (List.getLast?_eq_none_iff.1 hl) hne
      | some y => rfl
    have hmem : ∀ y, s.getLast? = some y → y ≠ '/' := by
      intro y hy e
      exact hs (e ▸ List.mem_of_getLast?_eq_some hy)
    rw [joinPath_concat init s hinit hne]
    by_cases hj : joinPath init = []
    · rw [hj, stepUp_nil]
      intro e
      exact hmem _ e rfl
    · rw [stepUp_of_ne_nil hj hne]
      have := hlast (joinPath init ++ ['/'])
      simp only [List.append_assoc, List.singleton_append] at this
      rw [this]
      intro e
      exact hmem _ e rfl

theorem no_double_slash_segment {s : string_t} (hs : '/' ∉ s) : ¬ ['/', '/'] <:+: s :=
  fun h => hs (h.subset (by simp))

theorem no_double_slash_append {s t : string_t} (hs : '/' ∉ s)
    (hhead : t.head? ≠ some '/') (ht : ¬ ['/', '/'] <:+: t) :
    ¬ ['/', '/'] <:+: s ++ '/' :: t := by
  induction s with
  | nil =>
    rw [List.nil_append, List.infix_cons_iff]
    rintro (h | h)
    · rw [List.cons_prefix_cons] at h
      obtain ⟨_, h2⟩ := h
      cases t with
      | nil => simp at h2
      | cons y ys =>
        rw [List.cons_prefix_cons] at h2
        exact hhead (by simp [← h2.1])
    · exact ht h
  | cons x xs ih =>
    have hx : x ≠ '/' := fun e => hs (by simp [e])
    rw [List.cons_append, List.infix_cons_iff]
    rintro (h | h)
    · rw [List.cons_prefix_cons] at h
      exact hx h.1.symm
    · exact ih (fun e => hs (List.mem_cons_of_mem x e)) h

theorem no_double_slash_joinPath (segs : List string_t) (h : ∀ s ∈ segs, s ≠ [] ∧ '/' ∉ s) :
    ¬ ['/', '/'] <:+: joinPath segs := by
  match segs, h with
  | [], _ => simp [joinPath]
  | [s], h => exact no_double_slash_segment (h s (by simp)).2
  | s :: t :: rest, h =>
    have hrest : ∀ x ∈ t :: rest, x ≠ [] ∧ '/' ∉ x :=
      fun x hx => h x (List.mem_cons_of_mem _ hx)
    exact no_double_slash_append (h s (by simp)).2 (head?_joinPath hrest)
      (no_double_slash_joinPath (t :: rest) hrest)

theorem wellFormedKey_of_joinedPath {p : string_t} (hp : joinedPath p) : wellFormedKey p := by
  obtain ⟨segs, hsegs, rfl⟩ := hp
  exact ⟨head?_joinPath hsegs, getLast?_joinPath hsegs, no_double_slash_joinPath segs hsegs⟩

/-! ## Every reachable map has ascending keys -/

theorem step_sorted {d : char_t} {st st1 : ParseState} {c : char_t}
    (hm : st.list.Sorted) (h : step d st c = some st1) : st1.list.Sorted := by
  by_cases hsc : c = ';'
  · rw [hsc, step_semicolon] at h
    obtain ⟨v, rfl⟩ := terminate_shape h
    exact hm.assign _ _
  · obtain ⟨st2, h2, hl⟩ := step_no_semicolon d st hsc
    rw [h2] at h
    cases h
    rw [hl]
    exact hm

theorem run_sorted {d : char_t} (t : string_t) {st st1 : ParseState}
    (hm : st.list.Sorted) (h : run d st t = some st1) : st1.list.Sorted := by
  induction t generalizing st with
  | nil =>
    simp only [run, Option.some.injEq] at h
    rw [← h]
    exact hm
  | cons c cs ih =>
    cases hstep : step d st c with
    | none => simp [run, hstep] at h
    | some st2 =>
      rw [run_cons_some cs hstep] at h
      exact ih (step_sorted hm hstep) h

theorem parse_sorted {sData : string_t} {list m : ValueMap} {delim : char_t}
    (h : Parse sData list delim = some m) : m.Sorted := by
  simp only [Parse] at h
  cases hrun : run delim (start list) sData with
  | none => simp [hrun] at h
  | some st =>
    simp only [hrun, Option.map_some', Option.some.injEq] at h
    rw [← h]
    have hstart : (start list).list.Sorted := List.Pairwise.nil
    exact run_sorted sData hstart hrun

/-- The hypothesis on the map in the class claims holds for every reachable instance. -/
theorem Reachable.sorted {p : TextParser} (h : Reachable p) : p.m_Values.Sorted := by
  induction h with
  | construct => exact List.Pairwise.nil
  | constructFrom sText delim p hp =>
    simp only [TextParser.constructFrom] at hp
    cases hm : Parse sText [] delim with
    | none => simp [hm] at hp
    | some m =>
      simp only [hm, Option.map_some', Option.some.injEq] at hp
      rw [← hp]
      exact parse_sorted hm
  | copy p _ ih => exact ih
  | addValue p sKey t _ ih => exact ih.assign sKey t
  | subscript p sKey _ ih =>
    simp only [TextParser.subscript, ValueMap.subscript]
    split_ifs
    · exact ih
    · exact ih.assign sKey []
  | subscriptWrite p sKey t _ ih => exact ih.assign sKey t

end pw

namespace pw

/-! ## The text behind a reachable instance -/

theorem ReachableFrom.reachable {sText : string_t} {p : TextParser}
    (h : ReachableFrom sText p) : Reachable p := by
  induction h with
  | construct => exact Reachable.construct
  | constructFrom sText delim p hp => exact Reachable.constructFrom sText delim p hp
  | copy _ p _ ih => exact Reachable.copy p ih
  | addValue _ p sKey t _ ih => exact Reachable.addValue p sKey t ih
  | subscript _ p sKey _ ih => exact Reachable.subscript p sKey ih
  | subscriptWrite _ p sKey t _ ih => exact Reachable.subscriptWrite p sKey t ih

/-- Every reachable instance is reachable from the text it retains. -/
theorem Reachable.reachableFrom {p : TextParser} (h : Reachable p) :
    ReachableFrom p.m_Data p := by
  induction h with
  | construct => exact ReachableFrom.construct
  | constructFrom sText delim p hp =>
    have hd : p.m_Data = sText := by
      simp only [TextParser.constructFrom] at hp
      cases hm : Parse sText [] delim with
      | none => simp [hm] at hp
      | some m =>
        simp only [hm, Option.map_some', Option.some.injEq] at hp
        rw [← hp]
    rw [hd]
    exact ReachableFrom.constructFrom sText delim p hp
  | copy p _ ih => exact ReachableFrom.copy _ p ih
  | addValue p sKey t _ ih => exact ReachableFrom.addValue _ p sKey t ih
  | subscript p sKey _ ih => exact ReachableFrom.subscript _ p sKey ih
  | subscriptWrite p sKey t _ ih => exact ReachableFrom.subscriptWrite _ p sKey t ih

/-- Copies and writes never change the retained text. -/
theorem ReachableFrom.m_Data_eq {sText : string_t} {p : TextParser}
    (h : ReachableFrom sText p) : p.m_Data = sText := by
  induction h with
  | construct => rfl
  | constructFrom sText delim p hp =>
    simp only [TextParser.constructFrom] at hp
    cases hm : Parse sText [] delim with
    | none => simp [hm] at hp
    | some m =>
      simp only [hm, Option.map_some', Option.some.injEq] at hp
      rw [← hp]
  | copy _ p _ ih => exact ih
  | addValue _ p sKey t _ ih => exact ih
  | subscript _ p sKey _ ih => exact ih
  | subscriptWrite _ p sKey t _ ih => exact ih

/-! ## Keys when no pushed token has a slash -/

theorem step_keyInvariant {d : char_t} {st st1 : ParseState} {c : char_t}
    (hpush : pushes d st c = true → '/' ∉ st.oss) (hinv : keyInvariant st)
    (h : step d st c = some st1) : keyInvariant st1 := by
  obtain ⟨hp, hl⟩ := hinv
  have hdown : keyInvariant { st with sCurrent := stepDown st.sCurrent, oss := [] } :=
    ⟨joinedPath_stepDown hp, hl⟩
  have happ : keyInvariant (append st c) := ⟨hp, hl⟩
  have hquote : keyInvariant (append { st with bString := true } c) := ⟨hp, hl⟩
  have hup : pushes d st c = true → keyInvariant (push st) :=
    fun hyes => ⟨joinedPath_stepUp hp (hpush hyes), hl⟩
  unfold step at h
  by_cases hsc : c = ';'
  · rw [if_pos hsc] at h
    obtain ⟨v, rfl⟩ := terminate_shape h
    refine ⟨joinedPath_stepDown hp, ?_⟩
    intro e he
    rcases ValueMap.mem_assign he with h1 | h1
    · rw [h1]
      exact hp
    · exact hl e h1
  · rw [if_neg hsc] at h
    by_cases h1 : c = '}'
    · rw [if_pos h1] at h
      cases h
      exact hdown
    · rw [if_neg h1] at h
      by_cases h2 : c = '{'
      · rw [if_pos h2] at h
        cases h
        refine hup ?_
        unfold pushes
        rw [if_neg hsc, if_neg h1, if_pos h2]
      · rw [if_neg h2] at h
        by_cases h3 : c = '"'
        · rw [if_pos h3] at h
          cases h
          exact hquote
        · rw [if_neg h3] at h
          by_cases h4 : d ≠ NUL
          · rw [if_pos h4] at h
            by_cases h5 : c = d
            · rw [if_pos h5] at h
              cases h
              refine hup ?_
              unfold pushes
              rw [if_neg hsc, if_neg h1, if_neg h2, if_neg h3, if_pos h4]
              exact decide_eq_true h5
            · rw [if_neg h5] at h
              split_ifs at h <;> cases h
              · exact ⟨hp, hl⟩
              · exact happ
          · rw [if_neg h4] at h
            by_cases h6 : isspace c = true ∧ ¬ st.bString = true
            · rw [if_pos h6] at h
              cases h
              refine hup ?_
              unfold pushes
              rw [if_neg hsc, if_neg h1, if_neg h2, if_neg h3, if_neg h4]
              simp [h6.1, h6.2]
            · rw [if_neg h6] at h
              cases h
              exact happ

theorem run_keyInvariant {d : char_t} (t : string_t) {st st1 : ParseState}
    (hpush : ∀ tok ∈ pushedTokens d st t, '/' ∉ tok) (hinv : keyInvariant st)
    (h : run d st t = some st1) : keyInvariant st1 := by
  induction t generalizing st with
  | nil =>
    simp only [run, Option.some.injEq] at h
    rw [← h]
    exact hinv
  | cons c cs ih =>
    cases hstep : step d st c with
    | none => simp [run, hstep] at h
    | some st2 =>
      rw [run_cons_some cs hstep] at h
      simp only [pushedTokens, hstep] at hpush
      by_cases hyes : pushes d st c = true
      · simp only [hyes, if_true] at hpush
        refine ih (fun tok htok => hpush tok (List.mem_cons_of_mem _ htok))
          (step_keyInvariant (fun _ => hpush st.oss (List.mem_cons_self _ _)) hinv hstep) h
      · simp only [hyes] at hpush
        refine ih (fun tok htok => hpush tok (by simpa using htok))
          (step_keyInvariant (fun hcontra => absurd hcontra hyes) hinv hstep) h

theorem keyInvariant_start (list : ValueMap) : keyInvariant (start list) :=
  ⟨joinedPath_nil, fun _ he => (List.not_mem_nil _ he).elim⟩

/-- On a text without `/` no pushed token has a `/`. -/
theorem pushedTokens_no_slash {d : char_t} (t : string_t) {st : ParseState}
    (ht : '/' ∉ t) (ho : '/' ∉ st.oss) (hinv : pathInvariant st) :
    ∀ tok ∈ pushedTokens d st t, '/' ∉ tok := by
  induction t generalizing st with
  | nil =>
    intro tok htok
    simp [pushedTokens] at htok
  | cons c cs ih =>
    have hc : c ≠ '/' := fun e => ht (by simp [e])
    intro tok htok
    cases hstep : step d st c with
    | none => simp [pushedTokens, hstep] at htok
    | some st2 =>
      have hinv2 := step_pathInvariant hc hinv hstep
      have hrest := ih (fun e => ht (List.mem_cons_of_mem c e)) hinv2.2.1 hinv2
      simp only [pushedTokens, hstep] at htok
      split_ifs at htok
      · rcases List.mem_cons.1 htok with h1 | h1
        · rw [h1]
          exact ho
        · exact hrest tok h1
      · exact hrest tok htok

end pw

namespace pw

/-! ## The claims -/

/-- C1: in whitespace mode the canonical sample text parses to exactly the seven
documented entries, whatever the output map held before. -/
theorem C1_sample_document (list : ValueMap) :
    Parse sampleText list NUL = some sampleEntries := by
  show Parse sampleText [] NUL = some sampleEntries
  decide

/-- C2: for every well-formed document, `Parse` in whitespace mode on its rendered text
returns exactly the mapping built by visiting the scalars in document order and writing
each unquoted value under the `/`-joined path of its enclosing containers and its own
identifier, a later write replacing an earlier one on the same path: the keys of the
result are strictly ascending and each key holds the value of its last scalar. -/
theorem C2_flattening (doc : List Stmt) (list : ValueMap) (hwf : wfBody doc = true) :
    Parse (renderDoc doc) list NUL = some (assignAll [] (flattenBody [] doc)) ∧
      (assignAll [] (flattenBody [] doc)).Sorted ∧
      ∀ key, (assignAll [] (flattenBody [] doc)).find key =
        lastValue (flattenBody [] doc) key := by
  refine ⟨?_, sorted_assignAll List.Pairwise.nil _, ?_⟩
  · cases doc with
    | nil => rfl
    | cons s ss =>
      simp only [wfBody, Bool.and_eq_true] at hwf
      have hnil : ∀ t ∈ ([] : List string_t), t ≠ [] := fun t ht => by cases ht
      have hrun : run NUL (start list) (renderStmt s ++ (renderBody ss ++ [])) =
          some { sCurrent := [], oss := [], bString := false,
                 list := assignAll [] (flattenBody [] (s :: ss)) } := by
        show run NUL { sCurrent := joinPath [], oss := [], bString := false, list := [] } _ = _
        rw [run_stmt_ws s [] [] _ hwf.1 hnil, run_body_ws ss [] _ [] hwf.2 hnil,
          ← assignAll_append]
        rfl
      rw [List.append_nil] at hrun
      simp only [Parse, renderDoc, hrun, Option.map_some']
  · intro key
    rw [find_assignAll]
    cases lastValue (flattenBody [] doc) key <;> rfl

/-- Witness of C2: a document with a quoted scalar, a nested scalar and an empty container. -/
theorem C2_flattening_witness :
    wfBody [.scalar "a".toList (.quoted "x y".toList),
            .container "c".toList [.scalar "b".toList (.bare "1".toList),
                                   .container "d".toList []]] = true ∧
      Parse "a \"x y\"; c \x7b b 1; d \x7b \x7d \x7d".toList [] NUL =
        some [("a".toList, "x y".toList), ("c/b".toList, "1".toList)] :=
  ⟨by decide,
    (C2_flattening [.scalar "a".toList (.quoted "x y".toList),
            .container "c".toList [.scalar "b".toList (.bare "1".toList),
                                   .container "d".toList []]] [] (by decide)).1⟩

/-- C3: in whitespace mode, for a tag `k` and a string `s` free of `;`, `{`, `}`, the
text `k "s";` parses to exactly the one-entry mapping `k -> s` (also for empty `s`,
and for `s` with whitespace). -/
theorem C3_quote_stripping (k s : string_t) (list : ValueMap)
    (hk : isTag k) (hs : ∀ c ∈ s, noBrace c) :
    Parse (k ++ [' ', '"'] ++ s ++ ['"', ';']) list NUL = some [(k, s)] :=
  parse_quoted_statement k s list hk hs

/-- Witness of C3: the value `"hello"` parses to `hello`, the value `""` to the empty
string. -/
theorem C3_quote_stripping_witness :
    isTag "k".toList ∧ (∀ c ∈ "hello".toList, noBrace c) ∧
      Parse "k \"hello\";".toList [] NUL = some [("k".toList, "hello".toList)] ∧
      Parse "k \"\";".toList [] NUL = some [("k".toList, [])] :=
  ⟨by decide, by decide,
    C3_quote_stripping "k".toList "hello".toList [] (by decide) (by decide),
    C3_quote_stripping "k".toList [] [] (by decide) (by decide)⟩

/-- C4: in whitespace mode, for a tag `k` and a string `u` free of `;`, `{`, `}` that
does not end with a quote (`u` may be empty), the text `k "u;` parses to exactly the
one-entry mapping `k -> ""`. -/
theorem C4_malformed_quoted_token (k u : string_t) (list : ValueMap)
    (hk : isTag k) (hu : ∀ c ∈ u, noBrace c) (hend : u.getLast? ≠ some '"') :
    Parse (k ++ [' ', '"'] ++ u ++ [';']) list NUL = some [(k, [])] := by
  have hrun : run NUL (start list) (k ++ ' ' :: '"' :: (u ++ ';' :: [])) =
      some { sCurrent := stepDown k, oss := [], bString := false, list := [(k, [])] } := by
    show run NUL { sCurrent := [], oss := [], bString := false, list := [] } _ = _
    rw [run_tag_ws k _ ' ' [] [] hk.2 (by decide), stepUp_nil,
      run_cons_some _ (step_quote _ _), run_quoted_ws_then u _ _ rfl hu, run_single,
      step_semicolon]
    simpa [append] using terminate_malformed k u true [] hend
  simp only [Parse, List.append_assoc, List.cons_append, List.nil_append, hrun, Option.map_some']

/-- Witness of C4: a lone quote as the value gives the empty string. -/
theorem C4_malformed_quoted_token_witness :
    isTag "k".toList ∧ (∀ c ∈ ([] : string_t), noBrace c) ∧
      ([] : string_t).getLast? ≠ some '"' ∧
      Parse ("k".toList ++ [' ', '"'] ++ [] ++ [';']) [] NUL = some [("k".toList, [])] :=
  ⟨by decide, by decide, by decide,
    C4_malformed_quoted_token "k".toList [] [] (by decide) (by decide) (by decide)⟩

/-- C5: the claim fails on the code.  On the text `;`, for every delimiter, and on the
text `a 1 ;` in whitespace mode, the terminator is processed with an empty token and
`Parse` reads `front()` of the empty string. -/
theorem C5_front_of_empty_token (list : ValueMap) (d : char_t) :
    Parse [';'] list d = none ∧ Parse "a 1 ;".toList list NUL = none := by
  refine ⟨?_, ?_⟩
  · simp [Parse, run, step, terminate, front, start]
  · show Parse "a 1 ;".toList [] NUL = none
    decide

/-- C6: for levels `(ci, ti, vi)` of slash-free identifiers `ci`, `ti` and bare values
`vi`, the text `c1 { t1 v1; c2 { t2 v2; ... } }` parses in whitespace mode to exactly the
entries `c1/.../ci/ti -> vi`: the result is these entries written in order, it has as many
entries as there are levels, and the level at index `i` is found under the key made of the
`i` containers around it, its own container and its tag. -/
theorem C6_nesting_depth (levels : List (string_t × string_t × string_t))
    (list : ValueMap) (h : ∀ l ∈ levels, isIdent l.1 ∧ isIdent l.2.1 ∧ isTag l.2.2) :
    Parse (nestText levels) list NUL = some (assignAll [] (nestEntries [] levels)) ∧
      (assignAll [] (nestEntries [] levels)).size = levels.length ∧
      ∀ (i : Nat) (c t v : string_t), levels[i]? = some (c, t, v) →
        (assignAll [] (nestEntries [] levels)).find
          (joinPath ((levels.take i).map (fun l => l.1) ++ [c, t])) = some v := by
  have hnil : ∀ s ∈ ([] : List string_t), s ≠ [] := fun s hs => by cases hs
  have hnil1 : ∀ s ∈ ([] : List string_t), '/' ∉ s := fun s hs => by cases hs
  have hnd := nodup_nestEntries levels [] h hnil1
  refine ⟨?_, ?_, ?_⟩
  · cases levels with
    | nil => rfl
    | cons l ls =>
      obtain ⟨c, t, v⟩ := l
      have hrun : run NUL (start list) (nestLevels ((c, t, v) :: ls) ++ []) =
          some { sCurrent := [], oss := [], bString := false,
                 list := assignAll [] (nestEntries [] ((c, t, v) :: ls)) } :=
        run_nestLevels ((c, t, v) :: ls) [] [] [] h hnil
      have hspace : run NUL (start list) (nestLevels ((c, t, v) :: ls) ++ []) =
          run NUL (start list) (nestText ((c, t, v) :: ls)) := by
        rw [List.append_nil]
        exact run_space_ws _ [] []
      rw [hspace] at hrun
      simp only [Parse, hrun, Option.map_some']
  · have := size_assignAll_new [] (nestEntries [] levels) hnd (fun k _ hk => by cases hk)
    rw [this, length_nestEntries]
    simp [ValueMap.size]
  · intro i c t v hi
    have hmem := mem_nestEntries levels [] i c t v hi
    rw [List.nil_append] at hmem
    rw [find_assignAll, lastValue_of_mem hnd hmem]
    rfl

/-- Witness of C6: two levels. -/
theorem C6_nesting_depth_witness :
    (∀ l ∈ [("c1".toList, "t1".toList, "v1".toList), ("c2".toList, "t2".toList, "v2".toList)],
        isIdent l.1 ∧ isIdent l.2.1 ∧ isTag l.2.2) ∧
      Parse "c1 \x7b t1 v1; c2 \x7b t2 v2; \x7d \x7d".toList [] NUL =
        some [("c1/c2/t2".toList, "v2".toList), ("c1/t1".toList, "v1".toList)] :=
  ⟨by decide,
    (C6_nesting_depth
      [("c1".toList, "t1".toList, "v1".toList), ("c2".toList, "t2".toList, "v2".toList)] []
      (by decide)).1⟩

/-- C7: characters after the last `;` never reach the map: for every text `t`, delimiter
`d` and suffix `u` without `;`, `Parse (t ++ u)` equals `Parse t`; and a text without any
`;` returns the empty mapping. -/
theorem C7_pending_token_never_flushed (t u : string_t) (list : ValueMap) (d : char_t)
    (hu : ';' ∉ u) :
    Parse (t ++ u) list d = Parse t list d ∧ Parse u list d = some [] := by
  refine ⟨?_, ?_⟩
  · simp only [Parse, run_append]
    cases run d (start list) t with
    | none => rfl
    | some st =>
      obtain ⟨st1, h1, hl1⟩ := run_no_semicolon d u st hu
      simp [h1, hl1]
  · obtain ⟨st1, h1, hl1⟩ := run_no_semicolon d u (start list) hu
    rw [Parse, h1, Option.map_some', hl1]
    rfl

/-- Witness of C7: the unterminated tail `c 2` after `a 1;` is dropped. -/
theorem C7_pending_token_never_flushed_witness :
    ';' ∉ " c 2".toList ∧
      Parse ("a 1;".toList ++ " c 2".toList) [] NUL = Parse "a 1;".toList [] NUL ∧
      Parse " c 2".toList [] NUL = some [] :=
  ⟨by decide, C7_pending_token_never_flushed "a 1;".toList " c 2".toList [] NUL (by decide)⟩

/-- C8: with a delimiter `d` that is not NUL and none of `;`, `{`, `}`, `"` (whitespace
or not), the concatenated statements `k d v ;` of pairs whose keys and values are non-empty
tokens without `d` (keys also without `/`) parse to exactly the mapping that sends each
key to the value of the last pair with that key: the result is the pairs written in
order, its keys are strictly ascending, and looking a key up gives that last value.  For
`=` and `a=1;b=2;` the result is `a -> 1, b -> 2`. -/
theorem C8_custom_delimiter (d : char_t) (pairs : List (string_t × string_t))
    (list : ValueMap) (hd : d ≠ NUL) (hdp : plain d)
    (hp : ∀ p ∈ pairs, isIdent p.1 ∧ d ∉ p.1 ∧ isTag p.2 ∧ d ∉ p.2) :
    Parse (delimText d pairs) list d = some (assignAll [] pairs) ∧
      (assignAll [] pairs).Sorted ∧
      (∀ key, (assignAll [] pairs).find key = lastValue pairs key) ∧
      Parse "a=1;b=2;".toList list '=' = some [("a".toList, "1".toList), ("b".toList, "2".toList)] := by
  refine ⟨run_delimText hd hdp pairs false [] hp, ?_, ?_, ?_⟩
  · exact sorted_assignAll List.Pairwise.nil pairs
  · intro key
    rw [find_assignAll]
    cases lastValue pairs key <;> rfl
  · show Parse "a=1;b=2;".toList [] '=' = _
    decide

/-- Witness of C8: with `:` as the delimiter, the second `x` replaces the first. -/
theorem C8_custom_delimiter_witness :
    ':' ≠ NUL ∧ plain ':' ∧
      Parse "x:1;b:2;x:3;".toList [] ':' =
        some [("b".toList, "2".toList), ("x".toList, "3".toList)] :=
  ⟨by decide, by decide,
    (C8_custom_delimiter ':' [("x".toList, "1".toList), ("b".toList, "2".toList),
      ("x".toList, "3".toList)] [] (by decide) (by decide) (by decide)).1⟩

/-- C9: in delimiter mode with a delimiter that is neither NUL nor whitespace, a text
without any quote parses like the same text with all its whitespace removed. -/
theorem C9_unquoted_whitespace_insignificant (t : string_t) (list : ValueMap) (d : char_t)
    (hd : d ≠ NUL) (hds : isspace d = false) (hq : '"' ∉ t) :
    Parse t list d = Parse (t.filter (fun c => !isspace c)) list d := by
  simp only [Parse]
  rw [run_filter_space hd hds t (start list) hq rfl]

/-- Witness of C9: `a = 1 ;` with newline and tab parses like `a=1;b=2;`. -/
theorem C9_unquoted_whitespace_insignificant_witness :
    '=' ≠ NUL ∧ isspace '=' = false ∧ '"' ∉ " a = 1 ;\n\tb=2 ;".toList ∧
      Parse " a = 1 ;\n\tb=2 ;".toList [] '=' =
        Parse (" a = 1 ;\n\tb=2 ;".toList.filter (fun c => !isspace c)) [] '=' :=
  ⟨by decide, by decide, by decide,
    C9_unquoted_whitespace_insignificant " a = 1 ;\n\tb=2 ;".toList [] '='
      (by decide) (by decide) (by decide)⟩

/-- C10 as stated fails: `a "b" ;` does not parse like `a "b";`, it gives `a -> ""`. -/
theorem C10_counterexample :
    isIdent "a".toList ∧ (∀ c ∈ "b".toList, plain c) ∧
      Parse ("a".toList ++ [' ', '"'] ++ "b".toList ++ ['"', ' ', ';']) [] NUL ≠
        Parse ("a".toList ++ [' ', '"'] ++ "b".toList ++ ['"', ';']) [] NUL ∧
      Parse ("a".toList ++ [' ', '"'] ++ "b".toList ++ ['"', ' ', ';']) [] NUL =
        some [("a".toList, [])] := by
  decide

/-- C10, amended: in whitespace mode, for an identifier `k` and a content `s` without `;`,
`{`, `}`, `"`, the text `k "s";` parses to `k -> s`, while `k "s" ;` parses to `k -> ""`:
the quote flag is still set when the space is read, so the space joins the token, which
then does not end with a quote. -/
theorem C10_space_before_terminator (k s : string_t) (list : ValueMap)
    (hk : isIdent k) (hs : ∀ c ∈ s, plain c) :
    Parse (k ++ [' ', '"'] ++ s ++ ['"', ';']) list NUL = some [(k, s)] ∧
      Parse (k ++ [' ', '"'] ++ s ++ ['"', ' ', ';']) list NUL = some [(k, [])] := by
  have hs1 : ∀ c ∈ s, noBrace c := fun c hc => (hs c hc).noBrace
  refine ⟨parse_quoted_statement k s list hk.1 hs1, ?_⟩
  have hrun : run NUL (start list) (k ++ ' ' :: '"' :: (s ++ '"' :: ' ' :: ';' :: [])) =
      some { sCurrent := stepDown k, oss := [], bString := false, list := [(k, [])] } := by
    show run NUL { sCurrent := [], oss := [], bString := false, list := [] } _ = _
    rw [run_tag_ws k _ ' ' [] [] hk.1.2 (by decide), stepUp_nil,
      run_cons_some _ (step_quote _ _), run_quoted_ws_then s _ _ rfl hs1,
      run_cons_some _ (step_quote _ _),
      run_cons_some _ (step_append_ws (by decide) (Or.inr rfl)), run_single, step_semicolon]
    have hend : (s ++ ['"', ' ']).getLast? ≠ some '"' := by
      have : s ++ ['"', ' '] = (s ++ ['"']) ++ [' '] := by simp
      rw [this, List.getLast?_concat]
      decide
    simpa [append] using terminate_malformed k (s ++ ['"', ' ']) true [] hend
  simp only [Parse, List.append_assoc, List.cons_append, List.nil_append, hrun, Option.map_some']

/-- Witness of C10 amended, at `k = a`, `s = b`. -/
theorem C10_space_before_terminator_witness :
    isIdent "a".toList ∧ (∀ c ∈ "b".toList, plain c) ∧
      Parse "a \"b\";".toList [] NUL = some [("a".toList, "b".toList)] ∧
      Parse "a \"b\" ;".toList [] NUL = some [("a".toList, [])] :=
  ⟨by decide, by decide,
    C10_space_before_terminator "a".toList "b".toList [] (by decide) (by decide)⟩

end pw

namespace pw

/-- C11: in whitespace mode, for an identifier `k` and bare values `v1`, `v2`, the text
`k v1; k v2;` parses to exactly the one-entry mapping `k -> v2`: the second write
replaces the first. -/
theorem C11_last_write_wins (k v1 v2 : string_t) (list : ValueMap)
    (hk : isIdent k) (h1 : isTag v1) (h2 : isTag v2) :
    Parse (k ++ [' '] ++ v1 ++ [';', ' '] ++ k ++ [' '] ++ v2 ++ [';']) list NUL =
      some [(k, v2)] := by
  have hrun : run NUL (start list)
      (k ++ ' ' :: (v1 ++ ';' :: ' ' :: (k ++ ' ' :: (v2 ++ ';' :: [])))) =
      some { sCurrent := [], oss := [], bString := false, list := [(k, v2)] } := by
    show run NUL { sCurrent := [], oss := [], bString := false, list := [] } _ = _
    rw [run_tag_ws k _ ' ' [] [] hk.1.2 (by decide), run_bare_value_ws v1 _ _ _ h1,
      stepDown_stepUp _ _ hk.1.1 hk.2, run_space_ws,
      run_tag_ws k _ ' ' [] _ hk.1.2 (by decide), run_bare_value_ws v2 _ _ _ h2,
      stepDown_stepUp _ _ hk.1.1 hk.2]
    simp [run, stepUp_nil, ValueMap.assign]
  simp only [Parse, List.append_assoc, List.cons_append, List.nil_append, hrun, Option.map_some']

/-- Witness of C11: `k 1; k 2;` gives `k -> 2`. -/
theorem C11_last_write_wins_witness :
    isIdent "k".toList ∧ isTag "1".toList ∧ isTag "2".toList ∧
      Parse "k 1; k 2;".toList [] NUL = some [("k".toList, "2".toList)] :=
  ⟨by decide, by decide, by decide,
    C11_last_write_wins "k".toList "1".toList "2".toList [] (by decide) (by decide) (by decide)⟩

/-- C12: `Parse` clears the output map first, so its result depends on the text and the
delimiter only: whatever the map `m` held before, the result is the one for the empty
map; two instances constructed from the same text and delimiter hold equal maps; and
every entry of the result is an entry of the result for the empty map. -/
theorem C12_parse_deterministic (sData : string_t) (m : ValueMap) (delim : char_t) :
    Parse sData m delim = Parse sData [] delim ∧
      (∀ p q, TextParser.constructFrom sData delim = some p →
        TextParser.constructFrom sData delim = some q → p.m_Values = q.m_Values) ∧
      (∀ r r0, Parse sData m delim = some r → Parse sData [] delim = some r0 →
        ∀ e ∈ r, e ∈ r0) := by
  have hclear : Parse sData m delim = Parse sData [] delim := by
    simp only [Parse, start, ValueMap.clear]
  refine ⟨hclear, ?_, ?_⟩
  · intro p q hp hq
    rw [hp] at hq
    cases hq
    rfl
  · intro r r0 hr hr0 e he
    rw [hclear, hr0] at hr
    cases hr
    exact he

/-- C13: an instance constructed from a text converts to true exactly when the parse
produced at least one entry; construction from the empty text, and from a text without
`;`, succeeds and gives an instance that converts to false. -/
theorem C13_truthiness_after_construction (sText : string_t) (delim : char_t) :
    (∀ p, TextParser.constructFrom sText delim = some p →
        (p.operator_bool = true ↔ 1 ≤ p.Size)) ∧
      (∃ p, TextParser.constructFrom [] delim = some p ∧ p.operator_bool = false) ∧
      (';' ∉ sText →
        ∃ p, TextParser.constructFrom sText delim = some p ∧ p.operator_bool = false) := by
  refine ⟨?_, ⟨_, rfl, rfl⟩, ?_⟩
  · intro p hp
    simp only [TextParser.constructFrom] at hp
    cases hm : Parse sText [] delim with
    | none => simp [hm] at hp
    | some m =>
      simp only [hm, Option.map_some', Option.some.injEq] at hp
      subst hp
      cases sText with
      | nil =>
        rw [parse_nil] at hm
        cases hm
        simp [TextParser.operator_bool, TextParser.Size, ValueMap.size]
      | cons c cs =>
        cases m with
        | nil => simp [TextParser.operator_bool, TextParser.Size, ValueMap.size]
        | cons e es => simp [TextParser.operator_bool, TextParser.Size, ValueMap.size]
  · intro hs
    obtain ⟨st1, h1, hl1⟩ := run_no_semicolon delim sText (start []) hs
    refine ⟨{ m_Data := sText, m_Delim := delim, m_Values := [] }, ?_, ?_⟩
    · simp only [TextParser.constructFrom, Parse, h1, Option.map_some', hl1]
      rfl
    · simp [TextParser.operator_bool, ValueMap.size]

/-- C14 as stated fails: a default-constructed instance that received one entry through
`AddValue` is reachable, has size 1 and converts to false. -/
theorem C14_counterexample :
    Reachable (TextParser.construct.AddValue "k".toList "v".toList) ∧
      1 ≤ (TextParser.construct.AddValue "k".toList "v".toList).Size ∧
      (TextParser.construct.AddValue "k".toList "v".toList).operator_bool = false :=
  ⟨Reachable.addValue _ _ _ Reachable.construct, by decide, by decide⟩

/-- C14, amended: a reachable instance retains the text given at its construction (the
empty text for default construction), whatever copies and writes followed.  With at
least one entry it converts to true exactly when that text is not empty, and an instance
that started from the empty text converts to false whatever was written into it. -/
theorem C14_truthy_with_entries_and_text (sText : string_t) (p : TextParser)
    (hr : ReachableFrom sText p) :
    Reachable p ∧ p.m_Data = sText ∧
      (1 ≤ p.Size → (p.operator_bool = true ↔ sText ≠ [])) ∧
      (sText = [] → p.operator_bool = false) := by
  have hd : p.m_Data = sText := hr.m_Data_eq
  refine ⟨hr.reachable, hd, ?_, ?_⟩
  · intro hs
    have hsize : p.m_Values.size ≠ 0 := by
      simp only [TextParser.Size] at hs
      omega
    cases sText with
    | nil => simp [TextParser.operator_bool, hd]
    | cons c cs => simp [TextParser.operator_bool, hd, hsize]
  · intro hnil
    rw [hnil] at hd
    simp [TextParser.operator_bool, hd]

/-- Witness of C14 amended: the instance constructed from `a 1;` with one more entry is
truthy, the default-constructed instance with two entries written into it is falsy. -/
theorem C14_truthy_with_entries_and_text_witness :
    ReachableFrom "a 1;".toList
        ((TextParser.mk "a 1;".toList NUL [("a".toList, "1".toList)]).AddValue
          "b".toList "2".toList) ∧
      ((TextParser.mk "a 1;".toList NUL [("a".toList, "1".toList)]).AddValue
          "b".toList "2".toList).operator_bool = true ∧
      ReachableFrom []
        ((TextParser.construct.AddValue "k".toList "v".toList).subscriptWrite
          "l".toList "w".toList) ∧
      ((TextParser.construct.AddValue "k".toList "v".toList).subscriptWrite
          "l".toList "w".toList).Size = 2 ∧
      ((TextParser.construct.AddValue "k".toList "v".toList).subscriptWrite
          "l".toList "w".toList).operator_bool = false :=
  ⟨ReachableFrom.addValue _ _ _ _ (ReachableFrom.constructFrom "a 1;".toList NUL _ (by decide)),
    ((C14_truthy_with_entries_and_text "a 1;".toList _
      (ReachableFrom.addValue _ _ "b".toList "2".toList
        (ReachableFrom.constructFrom "a 1;".toList NUL
          (TextParser.mk "a 1;".toList NUL [("a".toList, "1".toList)]) (by decide)))).2.2.1
      (by decide)).2 (by decide),
    ReachableFrom.subscriptWrite _ _ _ _ (ReachableFrom.addValue _ _ _ _ ReachableFrom.construct),
    by decide,
    (C14_truthy_with_entries_and_text [] _
      (ReachableFrom.subscriptWrite _ _ "l".toList "w".toList
        (ReachableFrom.addValue _ _ "k".toList "v".toList ReachableFrom.construct))).2.2.2 rfl⟩

/-- C15 as stated fails: a tag with `/` goes into the key as it stands, so keys can start
with `/`, end with `/` and contain `//`. -/
theorem C15_counterexample :
    Parse "/a 1;".toList [] NUL = some [("/a".toList, "1".toList)] ∧
      ("/a".toList).head? = some '/' ∧
      Parse "a/ 1;".toList [] NUL = some [("a/".toList, "1".toList)] ∧
      ("a/".toList).getLast? = some '/' ∧
      Parse "a//b 1;".toList [] NUL = some [("a//b".toList, "1".toList)] ∧
      ['/', '/'] <:+: "a//b".toList := by
  decide

/-- C15, amended: for every delimiter and every input text on which no token pushed
onto the path (the buffer at a `{`, at the delimiter, or at a separating whitespace)
contains `/`, every key of the mapping returned by `Parse` is a `/`-join of non-empty
segments without `/`: it does not start with `/`, does not end with `/` and does not
contain `//`.  A `/` elsewhere in the text, as in a value, does no harm. -/
theorem C15_keys_well_formed_without_pushed_slash (sData : string_t) (list : ValueMap)
    (delim : char_t) (m : ValueMap)
    (hp : ∀ tok ∈ pushedTokens delim (start list) sData, '/' ∉ tok)
    (h : Parse sData list delim = some m) :
    ∀ key ∈ m.map Prod.fst, joinedPath key ∧ wellFormedKey key := by
  simp only [Parse] at h
  cases hrun : run delim (start list) sData with
  | none => simp [hrun] at h
  | some st =>
    simp only [hrun, Option.map_some', Option.some.injEq] at h
    subst h
    have hinv := run_keyInvariant sData hp (keyInvariant_start list) hrun
    intro key hkey
    obtain ⟨e, he, rfl⟩ := List.mem_map.1 hkey
    exact ⟨hinv.2 e he, wellFormedKey_of_joinedPath (hinv.2 e he)⟩

/-- Witness of C15 amended: `c { url http://x; }` has slashes in its value only and
gives the key `c/url`. -/
theorem C15_keys_well_formed_without_pushed_slash_witness :
    (∀ tok ∈ pushedTokens NUL (start []) "c \x7b url http://x; \x7d".toList, '/' ∉ tok) ∧
      Parse "c \x7b url http://x; \x7d".toList [] NUL =
        some [("c/url".toList, "http://x".toList)] ∧
      wellFormedKey "c/url".toList :=
  ⟨by decide, by decide,
    (C15_keys_well_formed_without_pushed_slash "c \x7b url http://x; \x7d".toList [] NUL
      [("c/url".toList, "http://x".toList)] (by decide) (by decide) "c/url".toList
      (by decide)).2⟩

/-- C16: on an instance whose map has ascending keys (the invariant of `std::map`), after
`AddValue(k, s)` the call `GetValue<string>(k)` returns `s`, the out-parameter form
returns true and sets the parameter to `s`, `Contains(k)` is true, the values under all
other keys are unchanged, and `Size()` has grown by one exactly when `k` was absent
before. -/
theorem C16_string_round_trip (p : TextParser) (k s out : string_t)
    (hm : p.m_Values.Sorted) :
    (p.AddValue k s).GetValue k = s ∧
      (p.AddValue k s).GetValueOut k out = (true, s) ∧
      (p.AddValue k s).Contains k = true ∧
      (∀ key, key ≠ k → (p.AddValue k s).m_Values.find key = p.m_Values.find key) ∧
      (p.AddValue k s).Size = (if p.Contains k = true then p.Size else p.Size + 1) := by
  have hfind : (p.m_Values.assign k s).find k = some s := by
    rw [ValueMap.find_assign, if_pos rfl]
  have hcont : (p.AddValue k s).Contains k = true := by
    simp only [TextParser.Contains, TextParser.AddValue, ValueMap.find_isSome_iff_count, hfind,
      Option.isSome_some]
  refine ⟨?_, ?_, hcont, ?_, ?_⟩
  · simp only [TextParser.GetValue, hcont]
    simp [TextParser.AddValue, hfind]
  · simp only [TextParser.GetValueOut, hcont]
    simp [TextParser.AddValue, hfind]
  · intro key hkey
    simp only [TextParser.AddValue, ValueMap.find_assign, if_neg hkey]
  · simp only [TextParser.Size, TextParser.AddValue, TextParser.Contains,
      ValueMap.find_isSome_iff_count, ValueMap.size_assign hm]

/-- Witness of C16: a new key and an existing key on the instance constructed from
`a 1;`. -/
theorem C16_string_round_trip_witness :
    (TextParser.mk "a 1;".toList NUL [("a".toList, "1".toList)]).m_Values.Sorted ∧
      ((TextParser.mk "a 1;".toList NUL [("a".toList, "1".toList)]).AddValue
        "b".toList "x y".toList).GetValue "b".toList = "x y".toList ∧
      ((TextParser.mk "a 1;".toList NUL [("a".toList, "1".toList)]).AddValue
        "b".toList "x y".toList).Size = 2 ∧
      ((TextParser.mk "a 1;".toList NUL [("a".toList, "1".toList)]).AddValue
        "a".toList "z".toList).Size = 1 :=
  ⟨by decide,
    (C16_string_round_trip (TextParser.mk "a 1;".toList NUL [("a".toList, "1".toList)])
      "b".toList "x y".toList [] (by decide)).1,
    (C16_string_round_trip (TextParser.mk "a 1;".toList NUL [("a".toList, "1".toList)])
      "b".toList "x y".toList [] (by decide)).2.2.2.2,
    (C16_string_round_trip (TextParser.mk "a 1;".toList NUL [("a".toList, "1".toList)])
      "a".toList "z".toList [] (by decide)).2.2.2.2⟩

/-- C17: the claim fails on the code.  The three lines of the header comment, which have
no `;`, parse to the empty mapping, with the tabs of the comment and with single
spaces. -/
theorem C17_header_format_parses_to_nothing (list : ValueMap) :
    Parse headerText list NUL = some [] ∧ Parse headerLines list NUL = some [] := by
  refine ⟨?_, ?_⟩
  · show Parse headerText [] NUL = some []
    decide
  · show Parse headerLines [] NUL = some []
    decide

/-- C18 as stated fails: pushing the empty buffer onto the path `a` leaves `a`, not `a/`,
and `a  1;` with two spaces records the value under the key `a`. -/
theorem C18_counterexample :
    "a".toList ≠ [] ∧ stepUp "a".toList [] ≠ "a".toList ++ ['/'] ∧
      Parse "a  1;".toList [] NUL = some [("a".toList, "1".toList)] ∧
      ("a".toList).getLast? ≠ some '/' := by
  decide

/-- C18, amended: pushing an empty buffer leaves every path unchanged, `stepUp p "" = p`,
so the push action (at `{`, at separator whitespace, at the delimiter) with an empty
buffer changes nothing; `a  1;` with two spaces records the value 1 under the key `a`. -/
theorem C18_empty_push_is_no_op (p : string_t) (st : ParseState) (list : ValueMap) :
    stepUp p [] = p ∧ (st.oss = [] → push st = st) ∧
      Parse "a  1;".toList list NUL = some [("a".toList, "1".toList)] := by
  refine ⟨?_, push_empty, ?_⟩
  · cases p <;> simp [stepUp]
  · show Parse "a  1;".toList [] NUL = _
    decide

/-- C19: in whitespace mode, after a text `u` without a quote, a whitespace character
written twice gives the same result as written once, whatever follows. -/
theorem C19_consecutive_whitespace (u v : string_t) (w : char_t) (list : ValueMap)
    (hu : '"' ∉ u) (hw : isspace w = true) :
    Parse (u ++ [w, w] ++ v) list NUL = Parse (u ++ [w] ++ v) list NUL := by
  simp only [Parse, List.append_assoc, List.cons_append, List.nil_append, run_append]
  cases hrun : run NUL (start list) u with
  | none => rfl
  | some st =>
    have hb : st.bString = false := run_bString_false u hu rfl hrun
    have hb1 : (push st).bString = false := hb
    have h2 : run NUL st (w :: w :: v) = run NUL st (w :: v) := by
      rw [run_cons_some _ (step_space_ws hw hb), run_cons_some _ (step_space_ws hw hb),
        run_cons_some _ (step_space_ws hw hb1), push_empty rfl]
    simp only [Option.some_bind, h2]

/-- Witness of C19: `a  1;` with two spaces parses like `a 1;`. -/
theorem C19_consecutive_whitespace_witness :
    '"' ∉ "a".toList ∧ isspace ' ' = true ∧
      Parse "a  1;".toList [] NUL = Parse "a 1;".toList [] NUL :=
  ⟨by decide, by decide,
    C19_consecutive_whitespace "a".toList "1;".toList ' ' [] (by decide) (by decide)⟩

/-- C20: for every delimiter and every input text without `/`, after every prefix of the
text the path accumulator is empty or a `/`-join of non-empty segments without `/`, and
every key of the returned mapping is such a path: it does not start with `/`, does not
end with `/` and does not contain `//`. -/
theorem C20_path_invariant_without_slash (sData : string_t) (list : ValueMap)
    (delim : char_t) (hs : '/' ∉ sData) :
    (∀ pre post st, sData = pre ++ post → run delim (start list) pre = some st →
        joinedPath st.sCurrent) ∧
      (∀ m, Parse sData list delim = some m →
        ∀ key ∈ m.map Prod.fst, joinedPath key ∧ wellFormedKey key) := by
  refine ⟨?_, ?_⟩
  · intro pre post st hsplit hrun
    have hpre : '/' ∉ pre := fun hmem => hs (hsplit ▸ List.mem_append_left post hmem)
    exact (run_pathInvariant pre hpre (pathInvariant_start list) hrun).1
  · intro m h
    simp only [Parse] at h
    cases hrun : run delim (start list) sData with
    | none => simp [hrun] at h
    | some st =>
      simp only [hrun, Option.map_some', Option.some.injEq] at h
      subst h
      have hinv := run_pathInvariant sData hs (pathInvariant_start list) hrun
      intro key hkey
      obtain ⟨e, he, rfl⟩ := List.mem_map.1 hkey
      exact ⟨hinv.2.2 e he, wellFormedKey_of_joinedPath (hinv.2.2 e he)⟩

/-- Witness of C20: the key `c/d/a` of two nested containers. -/
theorem C20_path_invariant_without_slash_witness :
    '/' ∉ "c \x7b d \x7b a 1; \x7d \x7d".toList ∧
      Parse "c \x7b d \x7b a 1; \x7d \x7d".toList [] NUL =
        some [("c/d/a".toList, "1".toList)] ∧
      (joinedPath "c/d/a".toList ∧ wellFormedKey "c/d/a".toList) :=
  ⟨by decide, by decide,
    (C20_path_invariant_without_slash "c \x7b d \x7b a 1; \x7d \x7d".toList [] NUL
      (by decide)).2 [("c/d/a".toList, "1".toList)] (by decide) "c/d/a".toList (by decide)⟩

end pw
